import Mathlib

/-!
# Verification of the libgo I/O-wait core (`src/libgo/linux/io_wait.cpp`)

A shallow embedding of the I/O-wait core of the libgo coroutine scheduler:
`IoWait::CoSwitch`, `IoWait::SchedulerSwitch`, `IoWait::Cancel`,
`IoWait::WaitLoop`, `IoWait::ChooseEpoll`, `IoWait::CreateEpoll` and
`IoWait::IsEpollCreated`.

Modelling conventions:
* The two epoll instances are modelled as two lists of registered fds
  (`readFds`, `writeFds`); `epoll_ctl(ADD)` conses the fd onto the list of the
  chosen instance and fails with `EEXIST` when the fd is already present,
  `epoll_ctl(DEL)` erases the fd and reports whether the kernel acknowledged
  the removal.  Failures of `ADD` for any other reason (e.g. `EBADF`) depend
  on the outside world and are modelled by an environment oracle
  `env : Nat → Bool` indexed by the position of the attempt.
* The wait-set `wait_tasks_` is a list of task ids with test-and-remove
  `erase`; the scheduler's run queue (`AddTaskRunnable`) is a list.
* Reference-count operations (`IncrementRef` / `DecrementRef` / `RefGuard`)
  are recorded both in the task's `refCount` field and in an instrumentation
  trace of `RefOp`s, so that theorems can speak about which operations the
  core performs on the count.
* Locks (`io_block_lock_`, `epoll_lock_`, ...) serialise the actors; the
  embedding is the linearisation: each actor's body runs atomically, and
  the wait-set `erase` is the single-winner election point, exactly as the
  source comments describe ("sync between timer and epoll_wait").
-/

namespace IoWait

/-- `EPOLLIN` interest bit (linux value 0x001). -/
def EPOLLIN : Nat := 1

/-- `EPOLLOUT` interest bit (linux value 0x004). -/
def EPOLLOUT : Nat := 4

/-- `EPOLLONESHOT` flag (linux value 0x40000000); or-ed onto every
registration mask in `SchedulerSwitch`. -/
def EPOLLONESHOT : Nat := 1073741824

/-- The two epoll instances of the pair, `enum class EpollType`. -/
inductive EpollType where
  | read
  | write
deriving DecidableEq, Repr

/-- Task scheduler state tag; only the values this subsystem touches. -/
inductive TaskState where
  | runnable
  | io_block
deriving DecidableEq, Repr

/-- `EpollPtr`: the cookie installed in the kernel event, pointing back at
the owning task and carrying the generation of the block. -/
structure EpollPtr where
  tk : Nat
  io_block_id : Nat
deriving DecidableEq, Repr

/-- `FdStruct`: one entry of the interest list. -/
structure FdStruct where
  fd : Int
  event : Nat
  epoll_ptr : EpollPtr
deriving DecidableEq, Repr

/-- The per-task `IoWaitData`. -/
structure IoWaitData where
  io_block_id : Nat
  wait_successful : Nat
  io_block_timeout : Int
  io_block_timer : Option Nat
  wait_fds : List FdStruct
deriving DecidableEq, Repr

/-- The slice of a `Task` this subsystem reads and writes.  `refCount` is the
task's reference count (`IncrementRef`/`DecrementRef`). -/
structure Task where
  id : Nat
  state : TaskState
  ioData : IoWaitData
  refCount : Int
deriving DecidableEq, Repr

/-- `Task::IncrementRef`. -/
def incRef (tk : Task) : Task := { tk with refCount := tk.refCount + 1 }

/-- `Task::DecrementRef`. -/
def decRef (tk : Task) : Task := { tk with refCount := tk.refCount - 1 }

/-- An armed timer of `timer_mgr_` (`ExpireAt`): the callback captures the
task, the snapshotted generation and the deadline. -/
structure Timer where
  timerId : Nat
  timeoutMs : Int
  tk : Nat
  gen : Nat
deriving DecidableEq, Repr

/-- The shared state of the `IoWait` object that the block/resume protocol
touches: the wait-set `wait_tasks_`, the contents of the two epoll
instances, the scheduler run queue and the armed timers. -/
structure IoCore where
  waitTasks : List Nat
  readFds : List Int
  writeFds : List Int
  runnable : List Nat
  timers : List Timer
  nextTimerId : Nat
deriving DecidableEq, Repr

/-- The list of fds registered in one epoll instance. -/
def instFds (st : IoCore) : EpollType → List Int
  | .read => st.readFds
  | .write => st.writeFds

/-- Replace the fd list of one epoll instance. -/
def setInst (st : IoCore) : EpollType → List Int → IoCore
  | .read, l => { st with readFds := l }
  | .write, l => { st with writeFds := l }

/-- `IoWait::ChooseEpoll` (the instance-selection part): read instance iff
the mask contains `EPOLLIN`, write instance otherwise. -/
def ChooseEpoll (event : Nat) : EpollType :=
  if event &&& EPOLLIN ≠ 0 then .read else .write

/-- Result of `epoll_ctl(EPOLL_CTL_ADD)`. -/
inductive AddResult where
  | ok
  | eexist
  | otherError
deriving DecidableEq, Repr

/-- `epoll_ctl(epoll_fd, EPOLL_CTL_ADD, fd, ev)`: `fail` is the environment's
verdict for a failure other than `EEXIST` (bad fd, ...); otherwise the call
fails with `EEXIST` exactly when `fd` is already in the instance's interest
list, and on success registers it. -/
def epollAdd (st : IoCore) (t : EpollType) (fd : Int) (fail : Bool) :
    AddResult × IoCore :=
  if fail then (.otherError, st)
  else if (instFds st t).contains fd then (.eexist, st)
  else (.ok, setInst st t (fd :: instFds st t))

/-- `epoll_ctl(epoll_fd, EPOLL_CTL_DEL, fd, NULL)`: returns `true` iff the
kernel acknowledged the removal, i.e. the fd was registered. -/
def epollDel (st : IoCore) (t : EpollType) (fd : Int) : Bool × IoCore :=
  if (instFds st t).contains fd then
    (true, setInst st t ((instFds st t).erase fd))
  else (false, st)

/-- `wait_tasks_.erase(tk)`: test-and-remove; returns whether the task was
present (the caller that sees `true` is the elected resumer). -/
def eraseTask (st : IoCore) (tid : Nat) : Bool × IoCore :=
  if st.waitTasks.contains tid then
    (true, { st with waitTasks := st.waitTasks.erase tid })
  else (false, st)

/-- `g_Scheduler.AddTaskRunnable(tk)`. -/
def addRunnable (st : IoCore) (tid : Nat) : IoCore :=
  { st with runnable := st.runnable ++ [tid] }

/-- `timer_mgr_.ExpireAt(ms, cb)`: arms a timer and returns its handle. -/
def armTimer (st : IoCore) (tid gen : Nat) (ms : Int) : IoCore × Nat :=
  ({ st with
      timers := st.timers ++ [⟨st.nextTimerId, ms, tid, gen⟩],
      nextTimerId := st.nextTimerId + 1 },
   st.nextTimerId)

/-- Reference-count operations, recorded as an instrumentation trace. -/
inductive RefOp where
  | incr
  | decr
deriving DecidableEq, Repr

/-- `IoWait::CoSwitch(fdsts, timeout_ms)`: run on the task's own stack.  If
there is no current task it returns leaving everything unchanged; otherwise
it bumps the generation, marks the task `io_block`, resets
`wait_successful_`, stores the timeout, clears the timer handle, moves the
fd list into `wait_fds_` and stamps every `epoll_ptr` with the task and the
new generation.  (The final `CoYield` is the external context switch.) -/
def CoSwitch (cur : Option Task) (fdsts : List FdStruct) (timeout_ms : Int) :
    Option Task :=
  match cur with
  | none => none
  | some tk =>
    let id := tk.ioData.io_block_id + 1
    some { tk with
      state := .io_block,
      ioData :=
        { io_block_id := id,
          wait_successful := 0,
          io_block_timeout := timeout_ms,
          io_block_timer := none,
          wait_fds := fdsts.map fun f =>
            { f with epoll_ptr := { tk := tk.id, io_block_id := id } } } }

/-- Result of a run of `Cancel` (and of the rollback sweep it shares with
`SchedulerSwitch`): the updated task and core, whether this caller won the
wait-set election, the reference-count trace it produced, and the number of
`EPOLL_CTL_DEL` calls the kernel acknowledged. -/
structure CancelResult where
  tk : Task
  st : IoCore
  won : Bool
  trace : List RefOp
  delsOk : Nat
deriving DecidableEq, Repr

/-- The teardown sweep shared (textually identical in the source) between the
rollback loop of `SchedulerSwitch` and the clear loop of `Cancel`: for each
`(fd, event)` pair, `EPOLL_CTL_DEL` it from `ChooseEpoll(event)`, and
`DecrementRef` exactly when the kernel acknowledged the removal. -/
def delSweep (tk : Task) (st : IoCore) :
    List (Int × Nat) → Task × IoCore × List RefOp × Nat
  | [] => (tk, st, [], 0)
  | (fd, ev) :: rest =>
    match epollDel st (ChooseEpoll ev) fd with
    | (true, st1) =>
      let (tk', st', tr, d) := delSweep (decRef tk) st1 rest
      (tk', st', .decr :: tr, d + 1)
    | (false, st1) =>
      let (tk', st', tr, d) := delSweep tk st1 rest
      (tk', st', tr, d)

/-- Result of the registration loop of `SchedulerSwitch`.  `broke` records
whether the loop was left through the duplicate-fd (`EEXIST`) `break`;
`attempts` counts the `EPOLL_CTL_ADD` calls issued, `addsOk` the successful
ones, `delsOk` the acknowledged rollback `EPOLL_CTL_DEL`s. -/
structure RegResult where
  tk : Task
  st : IoCore
  ok : Bool
  broke : Bool
  trace : List RefOp
  attempts : Nat
  addsOk : Nat
  delsOk : Nat
deriving DecidableEq, Repr

/-- The `for (auto &fdst : wait_fds_)` registration loop of
`SchedulerSwitch`: pre-emptively `IncrementRef`, try `EPOLL_CTL_ADD` with
the chosen instance; on failure revert the increment, and on `EEXIST`
roll back every previously recorded registration and break; on any other
error skip the fd; on success record the pair in the rollback list and set
`ok`.  `env i` is the environment's verdict that attempt `i` fails for a
reason other than `EEXIST`. -/
def regLoop (env : Nat → Bool) (fds : List FdStruct) (i : Nat) (tk : Task)
    (st : IoCore) (rb : List (Int × Nat)) (ok : Bool) : RegResult :=
  match fds with
  | [] => ⟨tk, st, ok, false, [], 0, 0, 0⟩
  | f :: rest =>
    let tk1 := incRef tk
    match epollAdd st (ChooseEpoll f.event) f.fd (env i) with
    | (.ok, st1) =>
      let R := regLoop env rest (i + 1) tk1 st1 (rb ++ [(f.fd, f.event)]) true
      { R with trace := .incr :: R.trace, attempts := R.attempts + 1,
               addsOk := R.addsOk + 1 }
    | (.otherError, st1) =>
      let R := regLoop env rest (i + 1) (decRef tk1) st1 rb ok
      { R with trace := .incr :: .decr :: R.trace,
               attempts := R.attempts + 1 }
    | (.eexist, st1) =>
      let (tk2, st2, tr2, d2) := delSweep (decRef tk1) st1 rb
      ⟨tk2, st2, false, true, .incr :: .decr :: tr2, 1, 0, d2⟩

/-- Result of `SchedulerSwitch`.  `snappedId` is the generation snapshot
taken before the loop; `armed` records whether the timeout timer was set. -/
structure SwitchResult where
  tk : Task
  st : IoCore
  ok : Bool
  broke : Bool
  snappedId : Nat
  armed : Bool
  trace : List RefOp
  attempts : Nat
  addsOk : Nat
  delsOk : Nat
deriving DecidableEq, Repr

/-- `IoWait::SchedulerSwitch(tk)`: snapshot the generation, take the
`RefGuard`, push the task onto the wait-set, run the registration loop; if
nothing was registered (`!ok`) erase the task from the wait-set and, on
winning, make it runnable at once; otherwise, if a timeout was requested,
`IncrementRef` and arm the timer whose callback is
`{ Cancel(tk, id); DecrementRef(); }`.  The `RefGuard` releases on exit. -/
def SchedulerSwitch (env : Nat → Bool) (tk : Task) (st : IoCore) :
    SwitchResult :=
  let id := tk.ioData.io_block_id
  let tkG := incRef tk
  let st0 := { st with waitTasks := st.waitTasks ++ [tk.id] }
  let R := regLoop env tk.ioData.wait_fds 0 tkG st0 [] false
  if R.ok = false then
    let (erased, st2) := eraseTask R.st tk.id
    let st3 := if erased then addRunnable st2 tk.id else st2
    ⟨decRef R.tk, st3, false, R.broke, id, false,
      .incr :: R.trace ++ [.decr], R.attempts, R.addsOk, R.delsOk⟩
  else if R.tk.ioData.io_block_timeout ≠ -1 then
    let tk2 := incRef R.tk
    let (st2, timerId) := armTimer R.st tk.id id R.tk.ioData.io_block_timeout
    let tk3 :=
      { tk2 with ioData := { tk2.ioData with io_block_timer := some timerId } }
    ⟨decRef tk3, st2, true, R.broke, id, true,
      .incr :: R.trace ++ [.incr, .decr], R.attempts, R.addsOk, R.delsOk⟩
  else
    ⟨decRef R.tk, R.st, true, R.broke, id, false,
      .incr :: R.trace ++ [.decr], R.attempts, R.addsOk, R.delsOk⟩

/-- `IoWait::Cancel(tk, id)`: stale-generation calls return immediately;
otherwise attempt the wait-set `erase` — the winner clears every fd of the
block from its instance (`DecrementRef` per acknowledged `DEL`) and enqueues
the task runnable; a loser returns without touching anything else. -/
def Cancel (tk : Task) (id : Nat) (st : IoCore) : CancelResult :=
  if tk.ioData.io_block_id ≠ id then ⟨tk, st, false, [], 0⟩
  else
    match eraseTask st tk.id with
    | (true, st1) =>
      let (tk', st', tr, d) :=
        delSweep tk st1 (tk.ioData.wait_fds.map fun f => (f.fd, f.event))
      ⟨tk', addRunnable st' tk.id, true, tr, d⟩
    | (false, st1) => ⟨tk, st1, false, [], 0⟩

/-- The closure armed by `SchedulerSwitch`'s timeout path:
`{ this->Cancel(tk, id); tk->DecrementRef(); }`. -/
def timerCallback (tk : Task) (id : Nat) (st : IoCore) : CancelResult :=
  let C := Cancel tk id st
  { C with tk := decRef C.tk, trace := C.trace ++ [.decr] }

/-- The process-identity state of the epoll pair: the recorded owner pid and
an instrumentation counter bumped on every (re)creation of the pair. -/
structure EpollSys where
  ownerPid : Nat
  createGen : Nat
deriving DecidableEq, Repr

/-- `IoWait::IsEpollCreated`: the pair belongs to the current process. -/
def IsEpollCreated (es : EpollSys) (pid : Nat) : Bool :=
  es.ownerPid == pid

/-- `IoWait::CreateEpoll`: double-checked; recreates the pair (closing the
inherited descriptors) only when the recorded owner pid differs from the
current pid. -/
def CreateEpoll (es : EpollSys) (pid : Nat) : EpollSys :=
  if es.ownerPid = pid then es
  else { ownerPid := pid, createGen := es.createGen + 1 }

/-- The environment of one `WaitLoop` call: the sizes of the successive
`GetExpired` batches, whether `epoll_lock_.try_lock()` succeeds, and for
each instance the number of events `epoll_wait` reports once `EINTR`
retries are done (`none` = a non-`EINTR` error, instance skipped). -/
structure WaitEnv where
  batches : List Nat
  lockAcquired : Bool
  waitResult : EpollType → Option Nat

/-- The `for (;;) { GetExpired(timers, 128); if empty break; c += size; }`
drain at the top of `WaitLoop`: total number of expired timers moved to the
timeout list. -/
def drainTimers : List Nat → Nat
  | [] => 0
  | n :: rest => if n = 0 then 0 else n + drainTimers rest

/-- Result of `WaitLoop`: the return value, the epoll-pair identity state on
exit, the number of readiness events drained (`epoll_n`), and whether the
drain section ran. -/
structure LoopResult where
  ret : Int
  es : EpollSys
  epollN : Nat
  drained : Bool
deriving DecidableEq, Repr

/-- `IoWait::WaitLoop(enable_block)`: drain expired timers into `c`; try the
process-wide `epoll_lock_`, returning `c ? c : -1` when it is held
elsewhere; then, only if `IsEpollCreated()`, drain both instances (each
`GetEpoll` call runs `CreateEpoll`, a no-op since the pid matched),
summing the event counts into `epoll_n`; finally return `epoll_n + c`.
The per-event bookkeeping and the deferred `Cancel` calls are the
`Cancel` model above; the deferred task deletion has no observable
effect on this state. -/
def WaitLoop (env : WaitEnv) (es : EpollSys) (pid : Nat) : LoopResult :=
  let c := drainTimers env.batches
  if env.lockAcquired = false then
    ⟨if c ≠ 0 then (c : Int) else -1, es, 0, false⟩
  else if IsEpollCreated es pid then
    let es1 := CreateEpoll es pid
    let nRead := (env.waitResult .read).getD 0
    let es2 := CreateEpoll es1 pid
    let nWrite := (env.waitResult .write).getD 0
    ⟨((nRead + nWrite : Nat) : Int) + c, es2, nRead + nWrite, true⟩
  else
    ⟨(c : Int), es, 0, false⟩

/-- One complete block over its whole life, linearised: `CoSwitch` on the
task's stack, `SchedulerSwitch` after the yield, and then the resolution —
when nothing was registered the block already resolved inside
`SchedulerSwitch`; when registrations stand and no timer is armed, the one
external resumer (readiness or explicit cancel) runs `Cancel` with the
block's generation; when a timer is armed, either the external resumer runs
first and the timer callback later finds the election lost (`extFirst`), or
the timer callback itself is the resumer. -/
def completeBlock (env : Nat → Bool) (tk0 : Task) (fds : List FdStruct)
    (timeout_ms : Int) (st0 : IoCore) (extFirst : Bool) : Task × IoCore :=
  match CoSwitch (some tk0) fds timeout_ms with
  | none => (tk0, st0)
  | some tk1 =>
    let R := SchedulerSwitch env tk1 st0
    if R.ok = false then (R.tk, R.st)
    else if R.armed then
      if extFirst then
        let C := Cancel R.tk R.snappedId R.st
        let T := timerCallback C.tk R.snappedId C.st
        (T.tk, T.st)
      else
        let T := timerCallback R.tk R.snappedId R.st
        (T.tk, T.st)
    else
      let C := Cancel R.tk R.snappedId R.st
      (C.tk, C.st)

/-- The contending actors of one block: readiness processing, the timeout
callback and explicit cancellation all run `Cancel` with the generation
they captured; the failed-registration path of `SchedulerSwitch` runs the
bare erase-then-make-runnable step. -/
inductive Actor where
  | readiness (gen : Nat)
  | timeout (gen : Nat)
  | explicitCancel (gen : Nat)
  | failedReg
deriving DecidableEq, Repr

/-- One contender's move; returns whether it observed `erase = true`. -/
def actorStep (tk : Task) (st : IoCore) : Actor → Task × IoCore × Bool
  | .readiness g =>
    let C := Cancel tk g st
    (C.tk, C.st, C.won)
  | .timeout g =>
    let C := timerCallback tk g st
    (C.tk, C.st, C.won)
  | .explicitCancel g =>
    let C := Cancel tk g st
    (C.tk, C.st, C.won)
  | .failedReg =>
    match eraseTask st tk.id with
    | (true, st1) => (tk, addRunnable st1 tk.id, true)
    | (false, st1) => (tk, st1, false)

/-- Run the contenders in their linearisation order, counting how many of
them observed `erase = true`. -/
def runActors (tk : Task) (st : IoCore) : List Actor → Task × IoCore × Nat
  | [] => (tk, st, 0)
  | a :: rest =>
    let (tk1, st1, w) := actorStep tk st a
    let (tk', st', n) := runActors tk1 st1 rest
    (tk', st', (if w then 1 else 0) + n)

/-- The generation an actor carries, when it carries one. -/
def actorGen : Actor → Option Nat
  | .readiness g => some g
  | .timeout g => some g
  | .explicitCancel g => some g
  | .failedReg => none

/-! ### Sample values used by witnesses and counterexamples -/

/-- A sample task not yet blocked. -/
def sampleTask : Task := ⟨7, .runnable, ⟨0, 0, 0, none, []⟩, 5⟩

/-- A sample empty core state. -/
def sampleCore : IoCore := ⟨[], [], [], [], [], 0⟩

/-- A sample interest entry with an unstamped cookie. -/
def sampleFd (fd : Int) (ev : Nat) : FdStruct := ⟨fd, ev, ⟨0, 0⟩⟩

/-- The environment in which every `EPOLL_CTL_ADD` that can succeed does. -/
def envNone : Nat → Bool := fun _ => false

/-! ### Basic preservation lemmas -/

theorem setInst_waitTasks (st : IoCore) (t : EpollType) (l : List Int) :
    (setInst st t l).waitTasks = st.waitTasks := by cases t <;> rfl

theorem setInst_runnable (st : IoCore) (t : EpollType) (l : List Int) :
    (setInst st t l).runnable = st.runnable := by cases t <;> rfl

theorem setInst_timers (st : IoCore) (t : EpollType) (l : List Int) :
    (setInst st t l).timers = st.timers := by cases t <;> rfl

theorem setInst_nextTimerId (st : IoCore) (t : EpollType) (l : List Int) :
    (setInst st t l).nextTimerId = st.nextTimerId := by cases t <;> rfl

theorem setInst_instFds_other (st : IoCore) (t t' : EpollType) (l : List Int)
    (h : t' ≠ t) : instFds (setInst st t l) t' = instFds st t' := by
  cases t <;> cases t' <;> first | rfl | exact absurd rfl h

theorem setInst_instFds_self (st : IoCore) (t : EpollType) (l : List Int) :
    instFds (setInst st t l) t = l := by cases t <;> rfl

theorem epollDel_waitTasks (st : IoCore) (t : EpollType) (fd : Int) :
    (epollDel st t fd).2.waitTasks = st.waitTasks := by
  unfold epollDel; split <;> simp [setInst_waitTasks]

theorem epollDel_runnable (st : IoCore) (t : EpollType) (fd : Int) :
    (epollDel st t fd).2.runnable = st.runnable := by
  unfold epollDel; split <;> simp [setInst_runnable]

theorem epollDel_timers (st : IoCore) (t : EpollType) (fd : Int) :
    (epollDel st t fd).2.timers = st.timers := by
  unfold epollDel; split <;> simp [setInst_timers]

theorem epollDel_nextTimerId (st : IoCore) (t : EpollType) (fd : Int) :
    (epollDel st t fd).2.nextTimerId = st.nextTimerId := by
  unfold epollDel; split <;> simp [setInst_nextTimerId]

theorem epollAdd_waitTasks (st : IoCore) (t : EpollType) (fd : Int) (b : Bool) :
    (epollAdd st t fd b).2.waitTasks = st.waitTasks := by
  unfold epollAdd; split <;> [rfl; (split <;> simp [setInst_waitTasks])]

theorem epollAdd_runnable (st : IoCore) (t : EpollType) (fd : Int) (b : Bool) :
    (epollAdd st t fd b).2.runnable = st.runnable := by
  unfold epollAdd; split <;> [rfl; (split <;> simp [setInst_runnable])]

theorem epollAdd_timers (st : IoCore) (t : EpollType) (fd : Int) (b : Bool) :
    (epollAdd st t fd b).2.timers = st.timers := by
  unfold epollAdd; split <;> [rfl; (split <;> simp [setInst_timers])]

theorem epollAdd_nextTimerId (st : IoCore) (t : EpollType) (fd : Int) (b : Bool) :
    (epollAdd st t fd b).2.nextTimerId = st.nextTimerId := by
  unfold epollAdd; split <;> [rfl; (split <;> simp [setInst_nextTimerId])]

theorem epollAdd_instFds_other (st : IoCore) (t t' : EpollType) (fd : Int)
    (b : Bool) (h : t' ≠ t) :
    instFds (epollAdd st t fd b).2 t' = instFds st t' := by
  unfold epollAdd
  split
  · rfl
  · split
    · rfl
    · simp [setInst_instFds_other st t t' _ h]

/-! ### delSweep: pure bookkeeping lemmas -/

theorem delSweep_preserves (l : List (Int × Nat)) (tk : Task) (st : IoCore) :
    (delSweep tk st l).1.id = tk.id ∧
    (delSweep tk st l).1.ioData = tk.ioData ∧
    (delSweep tk st l).2.1.waitTasks = st.waitTasks ∧
    (delSweep tk st l).2.1.runnable = st.runnable ∧
    (delSweep tk st l).2.1.timers = st.timers ∧
    (delSweep tk st l).2.1.nextTimerId = st.nextTimerId := by
  induction l generalizing tk st with
  | nil => exact ⟨rfl, rfl, rfl, rfl, rfl, rfl⟩
  | cons p rest ih =>
    obtain ⟨fd, ev⟩ := p
    rcases hdel : epollDel st (ChooseEpoll ev) fd with ⟨b, st1⟩
    have hw : st1.waitTasks = st.waitTasks := by
      have := epollDel_waitTasks st (ChooseEpoll ev) fd; rw [hdel] at this; exact this
    have hr : st1.runnable = st.runnable := by
      have := epollDel_runnable st (ChooseEpoll ev) fd; rw [hdel] at this; exact this
    have ht : st1.timers = st.timers := by
      have := epollDel_timers st (ChooseEpoll ev) fd; rw [hdel] at this; exact this
    have hn : st1.nextTimerId = st.nextTimerId := by
      have := epollDel_nextTimerId st (ChooseEpoll ev) fd; rw [hdel] at this; exact this
    cases b with
    | true =>
      have := ih (decRef tk) st1
      simp only [delSweep, hdel]
      exact ⟨this.1, this.2.1, hw ▸ this.2.2.1, hr ▸ this.2.2.2.1,
        ht ▸ this.2.2.2.2.1, hn ▸ this.2.2.2.2.2⟩
    | false =>
      have := ih tk st1
      simp only [delSweep, hdel]
      exact ⟨this.1, this.2.1, hw ▸ this.2.2.1, hr ▸ this.2.2.2.1,
        ht ▸ this.2.2.2.2.1, hn ▸ this.2.2.2.2.2⟩

theorem delSweep_refCount (l : List (Int × Nat)) (tk : Task) (st : IoCore) :
    (delSweep tk st l).1.refCount =
      tk.refCount - ((delSweep tk st l).2.2.2 : Int) := by
  induction l generalizing tk st with
  | nil => simp [delSweep]
  | cons p rest ih =>
    obtain ⟨fd, ev⟩ := p
    rcases hdel : epollDel st (ChooseEpoll ev) fd with ⟨b, st1⟩
    cases b with
    | true =>
      simp only [delSweep, hdel]
      have := ih (decRef tk) st1
      rw [this]
      simp [decRef]
      ring
    | false =>
      simp only [delSweep, hdel]
      exact ih tk st1

theorem delSweep_trace (l : List (Int × Nat)) (tk : Task) (st : IoCore) :
    (delSweep tk st l).2.2.1 =
      List.replicate (delSweep tk st l).2.2.2 RefOp.decr := by
  induction l generalizing tk st with
  | nil => simp [delSweep]
  | cons p rest ih =>
    obtain ⟨fd, ev⟩ := p
    rcases hdel : epollDel st (ChooseEpoll ev) fd with ⟨b, st1⟩
    cases b with
    | true =>
      simp only [delSweep, hdel]
      rw [ih (decRef tk) st1]
      simp [List.replicate_succ]
    | false =>
      simp only [delSweep, hdel]
      exact ih tk st1

/-! ### regLoop: pure bookkeeping lemmas -/

theorem regLoop_preserves (fds : List FdStruct) (env : Nat → Bool) (i : Nat)
    (tk : Task) (st : IoCore) (rb : List (Int × Nat)) (ok : Bool) :
    (regLoop env fds i tk st rb ok).tk.id = tk.id ∧
    (regLoop env fds i tk st rb ok).tk.ioData = tk.ioData ∧
    (regLoop env fds i tk st rb ok).st.waitTasks = st.waitTasks ∧
    (regLoop env fds i tk st rb ok).st.runnable = st.runnable ∧
    (regLoop env fds i tk st rb ok).st.timers = st.timers ∧
    (regLoop env fds i tk st rb ok).st.nextTimerId = st.nextTimerId := by
  induction fds generalizing i tk st rb ok with
  | nil => exact ⟨rfl, rfl, rfl, rfl, rfl, rfl⟩
  | cons f rest ih =>
    rcases hadd : epollAdd st (ChooseEpoll f.event) f.fd (env i) with ⟨res, st1⟩
    have hw : st1.waitTasks = st.waitTasks := by
      have := epollAdd_waitTasks st (ChooseEpoll f.event) f.fd (env i)
      rw [hadd] at this; exact this
    have hr : st1.runnable = st.runnable := by
      have := epollAdd_runnable st (ChooseEpoll f.event) f.fd (env i)
      rw [hadd] at this; exact this
    have ht : st1.timers = st.timers := by
      have := epollAdd_timers st (ChooseEpoll f.event) f.fd (env i)
      rw [hadd] at this; exact this
    have hn : st1.nextTimerId = st.nextTimerId := by
      have := epollAdd_nextTimerId st (ChooseEpoll f.event) f.fd (env i)
      rw [hadd] at this; exact this
    cases res with
    | ok =>
      have := ih (i + 1) (incRef tk) st1 (rb ++ [(f.fd, f.event)]) true
      simp only [regLoop, hadd]
      exact ⟨this.1, this.2.1, hw ▸ this.2.2.1, hr ▸ this.2.2.2.1,
        ht ▸ this.2.2.2.2.1, hn ▸ this.2.2.2.2.2⟩
    | otherError =>
      have := ih (i + 1) (decRef (incRef tk)) st1 rb ok
      simp only [regLoop, hadd]
      exact ⟨this.1, this.2.1, hw ▸ this.2.2.1, hr ▸ this.2.2.2.1,
        ht ▸ this.2.2.2.2.1, hn ▸ this.2.2.2.2.2⟩
    | eexist =>
      have := delSweep_preserves rb (decRef (incRef tk)) st1
      simp only [regLoop, hadd]
      exact ⟨this.1, this.2.1, hw ▸ this.2.2.1, hr ▸ this.2.2.2.1,
        ht ▸ this.2.2.2.2.1, hn ▸ this.2.2.2.2.2⟩

theorem regLoop_refCount (fds : List FdStruct) (env : Nat → Bool) (i : Nat)
    (tk : Task) (st : IoCore) (rb : List (Int × Nat)) (ok : Bool) :
    (regLoop env fds i tk st rb ok).tk.refCount =
      tk.refCount + ((regLoop env fds i tk st rb ok).addsOk : Int)
        - ((regLoop env fds i tk st rb ok).delsOk : Int) := by
  induction fds generalizing i tk st rb ok with
  | nil => simp [regLoop]
  | cons f rest ih =>
    rcases hadd : epollAdd st (ChooseEpoll f.event) f.fd (env i) with ⟨res, st1⟩
    cases res with
    | ok =>
      simp only [regLoop, hadd]
      rw [ih (i + 1) (incRef tk) st1 (rb ++ [(f.fd, f.event)]) true]
      simp [incRef]
      ring
    | otherError =>
      simp only [regLoop, hadd]
      rw [ih (i + 1) (decRef (incRef tk)) st1 rb ok]
      simp [incRef, decRef]
    | eexist =>
      simp only [regLoop, hadd]
      rw [delSweep_refCount rb (decRef (incRef tk)) st1]
      simp [incRef, decRef]

theorem regLoop_addsOk_le (fds : List FdStruct) (env : Nat → Bool) (i : Nat)
    (tk : Task) (st : IoCore) (rb : List (Int × Nat)) (ok : Bool) :
    (regLoop env fds i tk st rb ok).addsOk ≤
      (regLoop env fds i tk st rb ok).attempts := by
  induction fds generalizing i tk st rb ok with
  | nil => simp [regLoop]
  | cons f rest ih =>
    rcases hadd : epollAdd st (ChooseEpoll f.event) f.fd (env i) with ⟨res, st1⟩
    cases res with
    | ok =>
      simp only [regLoop, hadd]
      exact Nat.succ_le_succ (ih (i + 1) (incRef tk) st1 (rb ++ [(f.fd, f.event)]) true)
    | otherError =>
      simp only [regLoop, hadd]
      exact Nat.le_succ_of_le (ih (i + 1) (decRef (incRef tk)) st1 rb ok)
    | eexist =>
      simp only [regLoop, hadd]
      exact Nat.zero_le _

theorem regLoop_trace_counts (fds : List FdStruct) (env : Nat → Bool) (i : Nat)
    (tk : Task) (st : IoCore) (rb : List (Int × Nat)) (ok : Bool) :
    (regLoop env fds i tk st rb ok).trace.count RefOp.incr =
      (regLoop env fds i tk st rb ok).attempts ∧
    (regLoop env fds i tk st rb ok).trace.count RefOp.decr =
      ((regLoop env fds i tk st rb ok).attempts
        - (regLoop env fds i tk st rb ok).addsOk)
        + (regLoop env fds i tk st rb ok).delsOk := by
  induction fds generalizing i tk st rb ok with
  | nil => simp [regLoop]
  | cons f rest ih =>
    rcases hadd : epollAdd st (ChooseEpoll f.event) f.fd (env i) with ⟨res, st1⟩
    cases res with
    | ok =>
      have hle := regLoop_addsOk_le rest env (i + 1) (incRef tk) st1
        (rb ++ [(f.fd, f.event)]) true
      have := ih (i + 1) (incRef tk) st1 (rb ++ [(f.fd, f.event)]) true
      simp only [regLoop, hadd]
      constructor
      · simp [List.count_cons, this.1]
      · simp only [List.count_cons, this.2]
        simp
        try omega
    | otherError =>
      have hle := regLoop_addsOk_le rest env (i + 1) (decRef (incRef tk)) st1 rb ok
      have := ih (i + 1) (decRef (incRef tk)) st1 rb ok
      simp only [regLoop, hadd]
      constructor
      · simp [List.count_cons, this.1]
      · simp only [List.count_cons, this.2]
        simp
        try omega
    | eexist =>
      have htr := delSweep_trace rb (decRef (incRef tk)) st1
      simp only [regLoop, hadd]
      constructor
      · simp [List.count_cons, htr, List.count_replicate]
      · simp [List.count_cons, htr, List.count_replicate]
        exact Nat.add_comm _ 1

/-! ### Claim C3: stale-generation cancel is a no-op -/

/-- C3: for every call `Cancel(tk, G)` in which `G` differs from the task's
current `io_block_id_`, the call returns immediately leaving all state
unchanged: no wait-set erase, no kernel deregistration, no reference-count
change, and the task is not made runnable. -/
theorem cancel_stale_noop (tk : Task) (id : Nat) (st : IoCore)
    (h : tk.ioData.io_block_id ≠ id) :
    (Cancel tk id st).tk = tk ∧ (Cancel tk id st).st = st ∧
    (Cancel tk id st).won = false ∧ (Cancel tk id st).trace = [] ∧
    (Cancel tk id st).delsOk = 0 := by
  simp [Cancel, h]

/-- Witness for `cancel_stale_noop` at a concrete stale generation. -/
theorem cancel_stale_noop_witness :
    (Cancel sampleTask 3 sampleCore).tk = sampleTask ∧
    (Cancel sampleTask 3 sampleCore).st = sampleCore ∧
    (Cancel sampleTask 3 sampleCore).won = false ∧
    (Cancel sampleTask 3 sampleCore).trace = [] ∧
    (Cancel sampleTask 3 sampleCore).delsOk = 0 :=
  cancel_stale_noop sampleTask 3 sampleCore (by decide)

/-! ### Claim C10: instance choice gives readable interest precedence -/

/-- C10: `ChooseEpoll` maps every mask containing `EPOLLIN` (also those that
additionally contain writable interest) to the read instance and every mask
without it (including masks with neither bit) to the write instance, and an
`EPOLL_CTL_ADD` through the chosen instance never touches the other
instance's interest list. -/
theorem chooseEpoll_readable_precedence (e : Nat) :
    (e &&& EPOLLIN ≠ 0 → ChooseEpoll e = EpollType.read) ∧
    (e &&& EPOLLIN = 0 → ChooseEpoll e = EpollType.write) ∧
    ∀ (st : IoCore) (fd : Int) (b : Bool) (t : EpollType),
      t ≠ ChooseEpoll e →
      instFds (epollAdd st (ChooseEpoll e) fd b).2 t = instFds st t := by
  refine ⟨fun h => ?_, fun h => ?_, fun st fd b t ht => ?_⟩
  · simp [ChooseEpoll, h]
  · simp [ChooseEpoll, h]
  · exact epollAdd_instFds_other st (ChooseEpoll e) t fd b ht

/-- Witness for `chooseEpoll_readable_precedence`: a mask with both interest
bits goes to the read instance, a write-only mask to the write instance. -/
theorem chooseEpoll_readable_precedence_witness :
    ChooseEpoll (EPOLLIN ||| EPOLLOUT) = EpollType.read ∧
    ChooseEpoll EPOLLOUT = EpollType.write :=
  ⟨(chooseEpoll_readable_precedence (EPOLLIN ||| EPOLLOUT)).1 (by decide),
   (chooseEpoll_readable_precedence EPOLLOUT).2.1 (by decide)⟩

/-! ### Claim C6: CoSwitch postconditions before yielding -/

/-- C6: with no current task `CoSwitch` returns with no state change;
otherwise it increments `io_block_id_` by exactly one to a new generation
`G`, sets the state to `io_block`, resets `wait_successful_`, stores the
timeout, clears the timer handle, moves the fd list into `wait_fds_` (fds
and masks preserved) and stamps every entry's cookie with the task and
generation `G`. -/
theorem coSwitch_post (tk : Task) (fds : List FdStruct) (t : Int) :
    CoSwitch none fds t = none ∧
    ∀ tk', CoSwitch (some tk) fds t = some tk' →
      tk'.id = tk.id ∧
      tk'.ioData.io_block_id = tk.ioData.io_block_id + 1 ∧
      tk'.state = TaskState.io_block ∧
      tk'.ioData.wait_successful = 0 ∧
      tk'.ioData.io_block_timeout = t ∧
      tk'.ioData.io_block_timer = none ∧
      tk'.ioData.wait_fds.map (fun f => (f.fd, f.event)) =
        fds.map (fun f => (f.fd, f.event)) ∧
      ∀ f ∈ tk'.ioData.wait_fds,
        f.epoll_ptr.tk = tk.id ∧
        f.epoll_ptr.io_block_id = tk.ioData.io_block_id + 1 := by
  refine ⟨rfl, fun tk' h => ?_⟩
  simp only [CoSwitch, Option.some.injEq] at h
  subst h
  refine ⟨rfl, rfl, rfl, rfl, rfl, rfl, ?_, ?_⟩
  · simp [List.map_map, Function.comp]
  · intro f hf
    simp only [List.mem_map] at hf
    obtain ⟨g, _, rfl⟩ := hf
    exact ⟨rfl, rfl⟩

/-- The task produced by `CoSwitch` from `sampleTask` on one readable fd. -/
def sampleCoSwitched : Task := ⟨7, .io_block, ⟨1, 0, 50, none, [⟨3, 1, ⟨7, 1⟩⟩]⟩, 5⟩

/-- Witness for `coSwitch_post` on a concrete task and fd list. -/
theorem coSwitch_post_witness :
    sampleCoSwitched.ioData.io_block_id = sampleTask.ioData.io_block_id + 1 ∧
    sampleCoSwitched.state = TaskState.io_block ∧
    sampleCoSwitched.ioData.wait_successful = 0 :=
  let h := (coSwitch_post sampleTask [sampleFd 3 EPOLLIN] 50).2
    sampleCoSwitched (by decide)
  ⟨h.2.1, h.2.2.1, h.2.2.2.1⟩

/-! ### Claim C7: wait_loop return value -/

/-- C7: after draining `c` expired timers, `WaitLoop` returns `c` when the
epoll lock cannot be acquired and `c` is non-zero, `-1` when it cannot be
acquired and `c` is zero, and `epoll_n + c` when it is acquired, `epoll_n`
being the total number of readiness events drained from both instances
(zero when the pair does not belong to this process). -/
theorem waitLoop_return (env : WaitEnv) (es : EpollSys) (pid : Nat) :
    (env.lockAcquired = false →
      (WaitLoop env es pid).ret =
        if drainTimers env.batches ≠ 0 then (drainTimers env.batches : Int)
        else -1) ∧
    (env.lockAcquired = true →
      (WaitLoop env es pid).ret =
        ((WaitLoop env es pid).epollN : Int) + (drainTimers env.batches : Int)) ∧
    (env.lockAcquired = true → IsEpollCreated es pid = true →
      (WaitLoop env es pid).epollN =
        (env.waitResult .read).getD 0 + (env.waitResult .write).getD 0) ∧
    (env.lockAcquired = true → IsEpollCreated es pid = false →
      (WaitLoop env es pid).epollN = 0) := by
  refine ⟨fun h => ?_, fun h => ?_, fun h hc => ?_, fun h hc => ?_⟩
  · simp [WaitLoop, h]
  · by_cases hc : IsEpollCreated es pid = true
    · simp [WaitLoop, h, hc]
    · simp only [Bool.not_eq_true] at hc
      simp [WaitLoop, h, hc]
  · simp [WaitLoop, h, hc]
  · simp [WaitLoop, h, hc]

/-- An environment whose `WaitLoop` call acquires the lock. -/
def sampleEnvLocked : WaitEnv :=
  ⟨[2, 0, 9], true, fun t => if t = .read then some 4 else some 1⟩

/-- An environment whose `WaitLoop` call finds the lock busy. -/
def sampleEnvBusy : WaitEnv := ⟨[0], false, fun _ => none⟩

/-- An epoll pair owned by pid 1. -/
def sampleSys : EpollSys := ⟨1, 0⟩

/-- Witness for `waitLoop_return`: with the lock busy and no expired timers
the sentinel `-1` comes back; with the lock, `epoll_n + c = (4+1) + 2`. -/
theorem waitLoop_return_witness :
    (WaitLoop sampleEnvBusy sampleSys 1).ret = -1 ∧
    (WaitLoop sampleEnvLocked sampleSys 1).ret = 7 := by
  refine ⟨?_, ?_⟩
  · have h := (waitLoop_return sampleEnvBusy sampleSys 1).1 rfl
    rw [h]; rfl
  · have h := (waitLoop_return sampleEnvLocked sampleSys 1).2.1 rfl
    have h2 := (waitLoop_return sampleEnvLocked sampleSys 1).2.2.1 rfl rfl
    rw [h, h2]; rfl

/-! ### Claim C8: wait-loop fork reinitialisation (refuted) -/

/-- C8 counterexample: a `WaitLoop` call that acquires the lock while the
recorded owner pid (1) differs from the current pid (2) does NOT recreate
the instances — the pair identity is untouched — and it does not drain
anything either; the claim that the drain then operates on freshly created
instances is false. -/
theorem waitLoop_fork_counterexample :
    sampleSys.ownerPid ≠ 2 ∧ sampleEnvLocked.lockAcquired = true ∧
    (WaitLoop sampleEnvLocked sampleSys 2).es = sampleSys ∧
    (WaitLoop sampleEnvLocked sampleSys 2).drained = false ∧
    (WaitLoop sampleEnvLocked sampleSys 2).epollN = 0 :=
  ⟨by decide, rfl, rfl, rfl, rfl⟩

/-- C8 amended: a `WaitLoop` call that acquires the lock and observes the
current pid differing from the recorded owner pid skips the drain entirely
and performs no recreation, returning only the timer count; the pair is
recreated lazily only by `CreateEpoll` on the registration path
(`ChooseEpoll`/`GetEpoll`). -/
theorem waitLoop_pid_mismatch_skips (env : WaitEnv) (es : EpollSys) (pid : Nat)
    (hl : env.lockAcquired = true) (hp : es.ownerPid ≠ pid) :
    (WaitLoop env es pid).es = es ∧
    (WaitLoop env es pid).drained = false ∧
    (WaitLoop env es pid).epollN = 0 ∧
    (WaitLoop env es pid).ret = (drainTimers env.batches : Int) ∧
    (CreateEpoll es pid).ownerPid = pid ∧
    (CreateEpoll es pid).createGen = es.createGen + 1 := by
  have hc : IsEpollCreated es pid = false := by
    simp [IsEpollCreated, hp]
  simp [WaitLoop, hl, hc, CreateEpoll, hp]

/-- Witness for `waitLoop_pid_mismatch_skips` at pid 2 against owner 1. -/
theorem waitLoop_pid_mismatch_skips_witness :
    (WaitLoop sampleEnvLocked sampleSys 2).drained = false ∧
    (CreateEpoll sampleSys 2).ownerPid = 2 := by
  have h := waitLoop_pid_mismatch_skips sampleEnvLocked sampleSys 2 rfl (by decide)
  exact ⟨h.2.1, h.2.2.2.2.1⟩

/-! ### Claim C9: empty interest list resumes immediately -/

theorem eraseTask_pushed (st : IoCore) (x : Nat) (h : x ∉ st.waitTasks) :
    eraseTask { st with waitTasks := st.waitTasks ++ [x] } x = (true, st) := by
  have hc : (st.waitTasks ++ [x]).contains x = true := by simp
  have he : (st.waitTasks ++ [x]).erase x = st.waitTasks := by
    rw [List.erase_append_right _ h]
    simp
  simp [eraseTask, hc, he]

/-- C9: a block started by `CoSwitch` with an empty fd list registers
nothing (`ok` stays false, no `EPOLL_CTL_ADD` attempted), erases the task
from the wait-set, makes it runnable at once with `wait_successful = 0`,
and arms no timer even when the requested timeout is not `-1` — the
timeout value is ignored for an empty list. -/
theorem empty_fds_immediate (env : Nat → Bool) (tk0 : Task) (timeout : Int)
    (st0 : IoCore) (hW : tk0.id ∉ st0.waitTasks) :
    ∀ tk1, CoSwitch (some tk0) [] timeout = some tk1 →
      (SchedulerSwitch env tk1 st0).ok = false ∧
      (SchedulerSwitch env tk1 st0).attempts = 0 ∧
      (SchedulerSwitch env tk1 st0).armed = false ∧
      (SchedulerSwitch env tk1 st0).st.waitTasks = st0.waitTasks ∧
      (SchedulerSwitch env tk1 st0).st.runnable = st0.runnable ++ [tk0.id] ∧
      (SchedulerSwitch env tk1 st0).st.readFds = st0.readFds ∧
      (SchedulerSwitch env tk1 st0).st.writeFds = st0.writeFds ∧
      (SchedulerSwitch env tk1 st0).st.timers = st0.timers ∧
      (SchedulerSwitch env tk1 st0).tk.ioData.wait_successful = 0 ∧
      (SchedulerSwitch env tk1 st0).tk.refCount = tk0.refCount := by
  intro tk1 h
  simp only [CoSwitch, Option.some.injEq] at h
  subst h
  simp [SchedulerSwitch, regLoop, eraseTask_pushed st0 tk0.id hW, addRunnable,
    incRef, decRef]

/-- The post-`CoSwitch` task for an empty interest list with timeout 50. -/
def sampleEmptySwitched : Task := ⟨7, .io_block, ⟨1, 0, 50, none, []⟩, 5⟩

/-- Witness for `empty_fds_immediate`: empty list, timeout 50 (≠ -1). -/
theorem empty_fds_immediate_witness :
    (SchedulerSwitch envNone sampleEmptySwitched sampleCore).ok = false ∧
    (SchedulerSwitch envNone sampleEmptySwitched sampleCore).st.runnable = [7] ∧
    (SchedulerSwitch envNone sampleEmptySwitched sampleCore).st.timers = [] := by
  have h := empty_fds_immediate envNone sampleTask 50 sampleCore (by decide)
    sampleEmptySwitched (by decide)
  refine ⟨h.1, ?_, ?_⟩
  · rw [h.2.2.2.2.1]; rfl
  · rw [h.2.2.2.2.2.2.2.1]; rfl

/-! ### Claim C5: reference-count operations (refuted, amended) -/

theorem cancel_trace_counts (tk : Task) (id : Nat) (st : IoCore) :
    (Cancel tk id st).trace.count RefOp.incr = 0 ∧
    (Cancel tk id st).trace.count RefOp.decr = (Cancel tk id st).delsOk := by
  by_cases h : tk.ioData.io_block_id = id
  · rcases her : eraseTask st tk.id with ⟨e, st1⟩
    cases e with
    | true =>
      have htr := delSweep_trace (tk.ioData.wait_fds.map fun f => (f.fd, f.event)) tk st1
      simp only [Cancel, h, ne_eq, not_true_eq_false, if_false, her]
      simp [htr, List.count_replicate]
    | false =>
      simp [Cancel, h, her]
  · simp [Cancel, h]

theorem timerCallback_trace_counts (tk : Task) (id : Nat) (st : IoCore) :
    (timerCallback tk id st).trace.count RefOp.incr = 0 ∧
    (timerCallback tk id st).trace.count RefOp.decr =
      (timerCallback tk id st).delsOk + 1 := by
  have h := cancel_trace_counts tk id st
  simp only [timerCallback]
  simp [List.count_append, h.1, h.2]

theorem schedulerSwitch_trace_counts (env : Nat → Bool) (tk : Task)
    (st : IoCore) :
    (SchedulerSwitch env tk st).trace.count RefOp.incr =
      (SchedulerSwitch env tk st).attempts + 1 +
        (if (SchedulerSwitch env tk st).armed then 1 else 0) ∧
    (SchedulerSwitch env tk st).trace.count RefOp.decr =
      ((SchedulerSwitch env tk st).attempts
        - (SchedulerSwitch env tk st).addsOk)
        + (SchedulerSwitch env tk st).delsOk + 1 := by
  have hcnt := regLoop_trace_counts tk.ioData.wait_fds env 0 (incRef tk)
    { st with waitTasks := st.waitTasks ++ [tk.id] } [] false
  simp only [SchedulerSwitch]
  generalize hR : regLoop env tk.ioData.wait_fds 0 (incRef tk)
    { st with waitTasks := st.waitTasks ++ [tk.id] } [] false = R
  rw [hR] at hcnt
  by_cases hok : R.ok = false
  · rcases her : eraseTask R.st tk.id with ⟨e, st2⟩
    simp [hok, her, List.count_cons, List.count_append, hcnt.1, hcnt.2]
  · simp only [Bool.not_eq_false] at hok
    by_cases ht : R.tk.ioData.io_block_timeout = -1
    · simp [hok, ht, List.count_cons, List.count_append, hcnt.1, hcnt.2]
    · simp [hok, ht, List.count_cons, List.count_append, hcnt.1, hcnt.2]
      try omega

/-- C5 counterexample: on a single-fd block with a 50 ms timeout the core
performs three increments — the `RefGuard` of `SchedulerSwitch` (line 76),
the pre-emptive add increment, and the timer-arming increment (line 128) —
and the guard's closing decrement, against only one successful
`EPOLL_CTL_ADD` and zero `EPOLL_CTL_DEL`s; so the count is operated on
outside the registration pair, contrary to the claim. -/
theorem refcount_ops_counterexample :
    (SchedulerSwitch envNone sampleCoSwitched sampleCore).addsOk = 1 ∧
    (SchedulerSwitch envNone sampleCoSwitched sampleCore).delsOk = 0 ∧
    (SchedulerSwitch envNone sampleCoSwitched sampleCore).trace =
      [RefOp.incr, RefOp.incr, RefOp.incr, RefOp.decr] := by decide

/-- C5 amended: every `EPOLL_CTL_ADD` attempt is preceded by an increment
which is reverted at once when the add fails, so each successful add nets
exactly +1; each kernel-acknowledged `EPOLL_CTL_DEL` is matched by exactly
one decrement; in addition `SchedulerSwitch` performs one balanced guard
increment/decrement pair around its body and, when arming a timeout, one
increment matched by the final decrement of the timer callback; the core
performs no further operations on the count (`Cancel` itself performs only
the DEL-matched decrements). -/
theorem refcount_ops_amended (env : Nat → Bool) (tk tk2 : Task)
    (st st2 : IoCore) (id : Nat) :
    ((SchedulerSwitch env tk st).trace.count RefOp.incr =
      (SchedulerSwitch env tk st).attempts + 1 +
        (if (SchedulerSwitch env tk st).armed then 1 else 0)) ∧
    ((SchedulerSwitch env tk st).trace.count RefOp.decr =
      ((SchedulerSwitch env tk st).attempts
        - (SchedulerSwitch env tk st).addsOk)
        + (SchedulerSwitch env tk st).delsOk + 1) ∧
    ((Cancel tk2 id st2).trace.count RefOp.incr = 0) ∧
    ((Cancel tk2 id st2).trace.count RefOp.decr = (Cancel tk2 id st2).delsOk) ∧
    ((timerCallback tk2 id st2).trace.count RefOp.incr = 0) ∧
    ((timerCallback tk2 id st2).trace.count RefOp.decr =
      (timerCallback tk2 id st2).delsOk + 1) :=
  ⟨(schedulerSwitch_trace_counts env tk st).1,
   (schedulerSwitch_trace_counts env tk st).2,
   (cancel_trace_counts tk2 id st2).1,
   (cancel_trace_counts tk2 id st2).2,
   (timerCallback_trace_counts tk2 id st2).1,
   (timerCallback_trace_counts tk2 id st2).2⟩

/-! ### The overlay invariant: instance contents during a block

`overlay st er ew` is `st` with the extra registrations `er` (read instance)
and `ew` (write instance) made by the running block stacked on top. -/

def overlay (st : IoCore) (er ew : List Int) : IoCore :=
  { st with readFds := er ++ st.readFds, writeFds := ew ++ st.writeFds }

theorem overlay_nil (st : IoCore) : overlay st [] [] = st := rfl

theorem overlay_waitTasks (st : IoCore) (er ew : List Int) :
    (overlay st er ew).waitTasks = st.waitTasks := rfl

theorem eraseTask_overlay (st : IoCore) (er ew : List Int) (x : Nat) :
    eraseTask (overlay st er ew) x =
      ((eraseTask st x).1, overlay (eraseTask st x).2 er ew) := by
  unfold eraseTask
  by_cases h : x ∈ st.waitTasks <;> simp [h, overlay]

theorem addRunnable_overlay (st : IoCore) (er ew : List Int) (x : Nat) :
    addRunnable (overlay st er ew) x = overlay (addRunnable st x) er ew := rfl

theorem epollAdd_fail (st : IoCore) (t : EpollType) (fd : Int) :
    epollAdd st t fd true = (.otherError, st) := rfl

theorem epollAdd_dup (st : IoCore) (t : EpollType) (fd : Int)
    (h : fd ∈ instFds st t) : epollAdd st t fd false = (.eexist, st) := by
  simp [epollAdd, h]

theorem epollAdd_new (st : IoCore) (t : EpollType) (fd : Int)
    (h : fd ∉ instFds st t) :
    epollAdd st t fd false = (.ok, setInst st t (fd :: instFds st t)) := by
  simp [epollAdd, h]

theorem epollDel_mem (st : IoCore) (t : EpollType) (fd : Int)
    (h : fd ∈ instFds st t) :
    epollDel st t fd = (true, setInst st t ((instFds st t).erase fd)) := by
  simp [epollDel, h]

theorem epollDel_not_mem (st : IoCore) (t : EpollType) (fd : Int)
    (h : fd ∉ instFds st t) : epollDel st t fd = (false, st) := by
  simp [epollDel, h]

theorem setInst_overlay_read (st : IoCore) (er ew l : List Int) :
    setInst (overlay st er ew) .read (l ++ st.readFds) = overlay st l ew := rfl

theorem setInst_overlay_write (st : IoCore) (er ew l : List Int) :
    setInst (overlay st er ew) .write (l ++ st.writeFds) = overlay st er l := rfl

/-- Sweeping a pair list over an overlaid state whose extras all have
witnesses in the list, are duplicate-free, and whose list entries are fresh
with respect to the base state, acknowledges exactly one `DEL` per extra
registration and restores the base state. -/
theorem delSweep_overlay (l : List (Int × Nat)) (tk : Task) (st : IoCore)
    (er ew : List Int)
    (hnr : er.Nodup) (hnw : ew.Nodup)
    (hfr : ∀ p ∈ l, ChooseEpoll p.2 = EpollType.read → p.1 ∉ st.readFds)
    (hfw : ∀ p ∈ l, ChooseEpoll p.2 = EpollType.write → p.1 ∉ st.writeFds)
    (hwr : ∀ x ∈ er, ∃ p ∈ l, p.1 = x ∧ ChooseEpoll p.2 = EpollType.read)
    (hww : ∀ x ∈ ew, ∃ p ∈ l, p.1 = x ∧ ChooseEpoll p.2 = EpollType.write) :
    (delSweep tk (overlay st er ew) l).1.refCount
        = tk.refCount - ((er.length + ew.length : Nat) : Int) ∧
    (delSweep tk (overlay st er ew) l).1.id = tk.id ∧
    (delSweep tk (overlay st er ew) l).1.ioData = tk.ioData ∧
    (delSweep tk (overlay st er ew) l).2.1 = st ∧
    (delSweep tk (overlay st er ew) l).2.2.2 = er.length + ew.length := by
  induction l generalizing tk er ew with
  | nil =>
    have her : er = [] := by
      rw [List.eq_nil_iff_forall_not_mem]
      intro a ha
      rcases hwr a ha with ⟨p, hp, -, -⟩
      exact (List.not_mem_nil p) hp
    have hew : ew = [] := by
      rw [List.eq_nil_iff_forall_not_mem]
      intro a ha
      rcases hww a ha with ⟨p, hp, -, -⟩
      exact (List.not_mem_nil p) hp
    subst her; subst hew
    simp [delSweep, overlay_nil]
  | cons p rest ih =>
    obtain ⟨fd, ev⟩ := p
    have hfr' : ∀ q ∈ rest, ChooseEpoll q.2 = EpollType.read → q.1 ∉ st.readFds :=
      fun q hq => hfr q (List.mem_cons_of_mem _ hq)
    have hfw' : ∀ q ∈ rest, ChooseEpoll q.2 = EpollType.write → q.1 ∉ st.writeFds :=
      fun q hq => hfw q (List.mem_cons_of_mem _ hq)
    cases hch : ChooseEpoll ev with
    | read =>
      have hww' : ∀ x ∈ ew,
          ∃ q ∈ rest, q.1 = x ∧ ChooseEpoll q.2 = EpollType.write := by
        intro x hx
        rcases hww x hx with ⟨q, hq, hq1, hq2⟩
        rcases List.mem_cons.mp hq with hqh | hqt
        · rw [hqh] at hq2
          simp only at hq2
          rw [hch] at hq2
          exact absurd hq2 (by simp)
        · exact ⟨q, hqt, hq1, hq2⟩
      by_cases hmem : fd ∈ er
      · have hm : fd ∈ instFds (overlay st er ew) EpollType.read :=
          List.mem_append_left _ hmem
        have hdel := epollDel_mem (overlay st er ew) EpollType.read fd hm
        have herase : (instFds (overlay st er ew) EpollType.read).erase fd
            = er.erase fd ++ st.readFds := List.erase_append_left _ hmem
        rw [herase] at hdel
        rw [setInst_overlay_read st er ew (er.erase fd)] at hdel
        have hwr' : ∀ x ∈ er.erase fd,
            ∃ q ∈ rest, q.1 = x ∧ ChooseEpoll q.2 = EpollType.read := by
          intro x hx
          obtain ⟨hne, hxer⟩ := (List.Nodup.mem_erase_iff hnr).mp hx
          rcases hwr x hxer with ⟨q, hq, hq1, hq2⟩
          rcases List.mem_cons.mp hq with hqh | hqt
          · rw [hqh] at hq1
            exact absurd hq1.symm hne
          · exact ⟨q, hqt, hq1, hq2⟩
        have ihr := ih (decRef tk) (er.erase fd) ew (hnr.erase fd) hnw
          hfr' hfw' hwr' hww'
        have hlen : (er.erase fd).length = er.length - 1 :=
          List.length_erase_of_mem hmem
        have hpos : 1 ≤ er.length := List.length_pos_of_mem hmem
        simp only [delSweep, hch, hdel]
        refine ⟨?_, ihr.2.1, ihr.2.2.1, ihr.2.2.2.1, ?_⟩
        · rw [ihr.1]
          simp only [decRef, hlen]
          push_cast
          omega
        · rw [ihr.2.2.2.2, hlen]
          omega
      · have hnm : fd ∉ instFds (overlay st er ew) EpollType.read := by
          intro hx
          rcases List.mem_append.mp hx with h1 | h2
          · exact hmem h1
          · exact hfr (fd, ev) (List.mem_cons_self _ _) hch h2
        have hdel := epollDel_not_mem (overlay st er ew) EpollType.read fd hnm
        have hwr' : ∀ x ∈ er,
            ∃ q ∈ rest, q.1 = x ∧ ChooseEpoll q.2 = EpollType.read := by
          intro x hx
          rcases hwr x hx with ⟨q, hq, hq1, hq2⟩
          rcases List.mem_cons.mp hq with hqh | hqt
          · rw [hqh] at hq1
            simp only at hq1
            rw [hq1] at hmem
            exact absurd hx hmem
          · exact ⟨q, hqt, hq1, hq2⟩
        have ihr := ih tk er ew hnr hnw hfr' hfw' hwr' hww'
        simp only [delSweep, hch, hdel]
        exact ihr
    | write =>
      have hwr' : ∀ x ∈ er,
          ∃ q ∈ rest, q.1 = x ∧ ChooseEpoll q.2 = EpollType.read := by
        intro x hx
        rcases hwr x hx with ⟨q, hq, hq1, hq2⟩
        rcases List.mem_cons.mp hq with hqh | hqt
        · rw [hqh] at hq2
          simp only at hq2
          rw [hch] at hq2
          exact absurd hq2 (by simp)
        · exact ⟨q, hqt, hq1, hq2⟩
      by_cases hmem : fd ∈ ew
      · have hm : fd ∈ instFds (overlay st er ew) EpollType.write :=
          List.mem_append_left _ hmem
        have hdel := epollDel_mem (overlay st er ew) EpollType.write fd hm
        have herase : (instFds (overlay st er ew) EpollType.write).erase fd
            = ew.erase fd ++ st.writeFds := List.erase_append_left _ hmem
        rw [herase] at hdel
        rw [setInst_overlay_write st er ew (ew.erase fd)] at hdel
        have hww' : ∀ x ∈ ew.erase fd,
            ∃ q ∈ rest, q.1 = x ∧ ChooseEpoll q.2 = EpollType.write := by
          intro x hx
          obtain ⟨hne, hxew⟩ := (List.Nodup.mem_erase_iff hnw).mp hx
          rcases hww x hxew with ⟨q, hq, hq1, hq2⟩
          rcases List.mem_cons.mp hq with hqh | hqt
          · rw [hqh] at hq1
            exact absurd hq1.symm hne
          · exact ⟨q, hqt, hq1, hq2⟩
        have ihr := ih (decRef tk) er (ew.erase fd) hnr (hnw.erase fd)
          hfr' hfw' hwr' hww'
        have hlen : (ew.erase fd).length = ew.length - 1 :=
          List.length_erase_of_mem hmem
        have hpos : 1 ≤ ew.length := List.length_pos_of_mem hmem
        simp only [delSweep, hch, hdel]
        refine ⟨?_, ihr.2.1, ihr.2.2.1, ihr.2.2.2.1, ?_⟩
        · rw [ihr.1]
          simp only [decRef, hlen]
          push_cast
          omega
        · rw [ihr.2.2.2.2, hlen]
          omega
      · have hnm : fd ∉ instFds (overlay st er ew) EpollType.write := by
          intro hx
          rcases List.mem_append.mp hx with h1 | h2
          · exact hmem h1
          · exact hfw (fd, ev) (List.mem_cons_self _ _) hch h2
        have hdel := epollDel_not_mem (overlay st er ew) EpollType.write fd hnm
        have hww' : ∀ x ∈ ew,
            ∃ q ∈ rest, q.1 = x ∧ ChooseEpoll q.2 = EpollType.write := by
          intro x hx
          rcases hww x hx with ⟨q, hq, hq1, hq2⟩
          rcases List.mem_cons.mp hq with hqh | hqt
          · rw [hqh] at hq1
            simp only at hq1
            rw [hq1] at hmem
            exact absurd hx hmem
          · exact ⟨q, hqt, hq1, hq2⟩
        have ihr := ih tk er ew hnr hnw hfr' hfw' hwr' hww'
        simp only [delSweep, hch, hdel]
        exact ihr

/-- The fds of the rollback list registered in the read instance. -/
def rbReads (rb : List (Int × Nat)) : List Int :=
  rb.filterMap fun p =>
    if ChooseEpoll p.2 = EpollType.read then some p.1 else none

/-- The fds of the rollback list registered in the write instance. -/
def rbWrites (rb : List (Int × Nat)) : List Int :=
  rb.filterMap fun p =>
    if ChooseEpoll p.2 = EpollType.write then some p.1 else none

theorem mem_rbReads (rb : List (Int × Nat)) (x : Int) :
    x ∈ rbReads rb ↔
      ∃ p ∈ rb, p.1 = x ∧ ChooseEpoll p.2 = EpollType.read := by
  simp only [rbReads, List.mem_filterMap]
  constructor
  · rintro ⟨p, hp, hpx⟩
    by_cases hc : ChooseEpoll p.2 = EpollType.read
    · rw [if_pos hc] at hpx
      exact ⟨p, hp, Option.some.inj hpx, hc⟩
    · rw [if_neg hc] at hpx
      cases hpx
  · rintro ⟨p, hp, h1, h2⟩
    exact ⟨p, hp, by rw [if_pos h2, h1]⟩

theorem mem_rbWrites (rb : List (Int × Nat)) (x : Int) :
    x ∈ rbWrites rb ↔
      ∃ p ∈ rb, p.1 = x ∧ ChooseEpoll p.2 = EpollType.write := by
  simp only [rbWrites, List.mem_filterMap]
  constructor
  · rintro ⟨p, hp, hpx⟩
    by_cases hc : ChooseEpoll p.2 = EpollType.write
    · rw [if_pos hc] at hpx
      exact ⟨p, hp, Option.some.inj hpx, hc⟩
    · rw [if_neg hc] at hpx
      cases hpx
  · rintro ⟨p, hp, h1, h2⟩
    exact ⟨p, hp, by rw [if_pos h2, h1]⟩

theorem rbReads_length_add (rb : List (Int × Nat)) :
    (rbReads rb).length + (rbWrites rb).length = rb.length := by
  induction rb with
  | nil => rfl
  | cons p rest ih =>
    cases hch : ChooseEpoll p.2 with
    | read =>
      simp only [rbReads, rbWrites] at ih
      simp [rbReads, rbWrites, List.filterMap_cons, hch]
      omega
    | write =>
      simp only [rbReads, rbWrites] at ih
      simp [rbReads, rbWrites, List.filterMap_cons, hch]
      omega

theorem rbReads_append (rb : List (Int × Nat)) (p : Int × Nat) :
    rbReads (rb ++ [p]) =
      rbReads rb ++
        (if ChooseEpoll p.2 = EpollType.read then [p.1] else []) := by
  simp only [rbReads, List.filterMap_append]
  congr 1
  split
  next h => simp [List.filterMap_cons, h]
  next h => simp [List.filterMap_cons, h]

theorem rbWrites_append (rb : List (Int × Nat)) (p : Int × Nat) :
    rbWrites (rb ++ [p]) =
      rbWrites rb ++
        (if ChooseEpoll p.2 = EpollType.write then [p.1] else []) := by
  simp only [rbWrites, List.filterMap_append]
  congr 1
  split
  next h => simp [List.filterMap_cons, h]
  next h => simp [List.filterMap_cons, h]

theorem regLoop_broke_ok (fds : List FdStruct) (env : Nat → Bool) (i : Nat)
    (tk : Task) (st : IoCore) (rb : List (Int × Nat)) (ok : Bool) :
    (regLoop env fds i tk st rb ok).broke = true →
    (regLoop env fds i tk st rb ok).ok = false := by
  induction fds generalizing i tk st rb ok with
  | nil => simp [regLoop]
  | cons f rest ih =>
    rcases hadd : epollAdd st (ChooseEpoll f.event) f.fd (env i) with ⟨res, st1⟩
    cases res with
    | ok =>
      simp only [regLoop, hadd]
      exact ih (i + 1) (incRef tk) st1 (rb ++ [(f.fd, f.event)]) true
    | otherError =>
      simp only [regLoop, hadd]
      exact ih (i + 1) (decRef (incRef tk)) st1 rb ok
    | eexist =>
      simp only [regLoop, hadd]
      intro _
      trivial

/-- The main invariant of the registration loop, run from a state that is
the base `st` overlaid with the extras `er`/`ew` matching the rollback list
`rb`, on an interest list fresh with respect to `st`: if the loop ends with
`ok = false` the base state is restored and every registration made was
acknowledged away again; if it ends with `ok = true` the final state is the
base overlaid with duplicate-free extras, one per successful add, each
witnessed by an entry of the interest list. -/
theorem regLoop_main (fds : List FdStruct) (env : Nat → Bool) (i : Nat)
    (tk : Task) (st : IoCore) (er ew : List Int) (rb : List (Int × Nat))
    (ok : Bool)
    (hnr : er.Nodup) (hnw : ew.Nodup)
    (hdr : ∀ x ∈ er, x ∉ st.readFds) (hdw : ∀ x ∈ ew, x ∉ st.writeFds)
    (hfr : ∀ f ∈ fds, ChooseEpoll f.event = EpollType.read → f.fd ∉ st.readFds)
    (hfw : ∀ f ∈ fds, ChooseEpoll f.event = EpollType.write → f.fd ∉ st.writeFds)
    (hpr : er.Perm (rbReads rb)) (hpw : ew.Perm (rbWrites rb))
    (hok : ok = false → rb = [] ∧ er = [] ∧ ew = []) :
    ((regLoop env fds i tk (overlay st er ew) rb ok).ok = false →
      (regLoop env fds i tk (overlay st er ew) rb ok).st = st ∧
      (regLoop env fds i tk (overlay st er ew) rb ok).delsOk =
        rb.length + (regLoop env fds i tk (overlay st er ew) rb ok).addsOk) ∧
    ((regLoop env fds i tk (overlay st er ew) rb ok).ok = true →
      (regLoop env fds i tk (overlay st er ew) rb ok).delsOk = 0 ∧
      ∃ er' ew',
        (regLoop env fds i tk (overlay st er ew) rb ok).st = overlay st er' ew' ∧
        er'.Nodup ∧ ew'.Nodup ∧
        (∀ x ∈ er', x ∉ st.readFds) ∧ (∀ x ∈ ew', x ∉ st.writeFds) ∧
        (∀ x ∈ er', x ∈ er ∨ ∃ f ∈ fds, f.fd = x ∧
          ChooseEpoll f.event = EpollType.read) ∧
        (∀ x ∈ ew', x ∈ ew ∨ ∃ f ∈ fds, f.fd = x ∧
          ChooseEpoll f.event = EpollType.write) ∧
        er'.length + ew'.length = er.length + ew.length +
          (regLoop env fds i tk (overlay st er ew) rb ok).addsOk) := by
  induction fds generalizing i tk er ew rb ok with
  | nil =>
    simp only [regLoop]
    constructor
    · intro h
      obtain ⟨hrb, her, hew⟩ := hok h
      subst hrb; subst her; subst hew
      exact ⟨overlay_nil st, by simp⟩
    · intro _
      exact ⟨by trivial, er, ew, by trivial, hnr, hnw, hdr, hdw,
        fun x hx => Or.inl hx, fun x hx => Or.inl hx, by omega⟩
  | cons f rest ih =>
    have hfrr : ∀ g ∈ rest, ChooseEpoll g.event = EpollType.read →
        g.fd ∉ st.readFds :=
      fun g hg => hfr g (List.mem_cons_of_mem _ hg)
    have hfwr : ∀ g ∈ rest, ChooseEpoll g.event = EpollType.write →
        g.fd ∉ st.writeFds :=
      fun g hg => hfw g (List.mem_cons_of_mem _ hg)
    by_cases henv : env i = true
    · have hadd := epollAdd_fail (overlay st er ew) (ChooseEpoll f.event) f.fd
      have IH := ih (i + 1) (decRef (incRef tk)) er ew rb ok hnr hnw hdr hdw
        hfrr hfwr hpr hpw hok
      simp only [regLoop, henv, hadd]
      constructor
      · exact IH.1
      · intro hko
        obtain ⟨hdels, er', ew', hsteq, h1, h2, h3, h4, h5, h6, h7⟩ := IH.2 hko
        refine ⟨hdels, er', ew', hsteq, h1, h2, h3, h4, ?_, ?_, h7⟩
        · intro x hx
          rcases h5 x hx with hxe | ⟨g, hg, hgx, hgc⟩
          · exact Or.inl hxe
          · exact Or.inr ⟨g, List.mem_cons_of_mem _ hg, hgx, hgc⟩
        · intro x hx
          rcases h6 x hx with hxe | ⟨g, hg, hgx, hgc⟩
          · exact Or.inl hxe
          · exact Or.inr ⟨g, List.mem_cons_of_mem _ hg, hgx, hgc⟩
    · have henv' : env i = false := by simpa using henv
      cases hch : ChooseEpoll f.event with
      | read =>
        by_cases hmem : f.fd ∈ er
        · have hm : f.fd ∈ instFds (overlay st er ew) EpollType.read :=
            List.mem_append_left _ hmem
          have hadd := epollAdd_dup (overlay st er ew) EpollType.read f.fd hm
          have hfr2 : ∀ p ∈ rb, ChooseEpoll p.2 = EpollType.read →
              p.1 ∉ st.readFds := by
            intro p hp hcp
            have hx : p.1 ∈ rbReads rb := (mem_rbReads rb p.1).mpr ⟨p, hp, rfl, hcp⟩
            exact hdr p.1 (hpr.mem_iff.mpr hx)
          have hfw2 : ∀ p ∈ rb, ChooseEpoll p.2 = EpollType.write →
              p.1 ∉ st.writeFds := by
            intro p hp hcp
            have hx : p.1 ∈ rbWrites rb := (mem_rbWrites rb p.1).mpr ⟨p, hp, rfl, hcp⟩
            exact hdw p.1 (hpw.mem_iff.mpr hx)
          have hwr2 : ∀ x ∈ er, ∃ p ∈ rb, p.1 = x ∧
              ChooseEpoll p.2 = EpollType.read :=
            fun x hx => (mem_rbReads rb x).mp (hpr.mem_iff.mp hx)
          have hww2 : ∀ x ∈ ew, ∃ p ∈ rb, p.1 = x ∧
              ChooseEpoll p.2 = EpollType.write :=
            fun x hx => (mem_rbWrites rb x).mp (hpw.mem_iff.mp hx)
          have hds := delSweep_overlay rb (decRef (incRef tk)) st er ew hnr hnw
            hfr2 hfw2 hwr2 hww2
          have hlen : er.length + ew.length = rb.length := by
            have h1 := hpr.length_eq
            have h2 := hpw.length_eq
            have h3 := rbReads_length_add rb
            omega
          simp only [regLoop, henv', hch, hadd]
          constructor
          · intro _
            refine ⟨hds.2.2.2.1, ?_⟩
            rw [hds.2.2.2.2]
            omega
          · intro hcontra
            simp at hcontra
        · have hnm : f.fd ∉ instFds (overlay st er ew) EpollType.read := by
            intro hx
            rcases List.mem_append.mp hx with h1 | h2
            · exact hmem h1
            · exact hfr f (List.mem_cons_self _ _) hch h2
          have hadd := epollAdd_new (overlay st er ew) EpollType.read f.fd hnm
          have hst : setInst (overlay st er ew) EpollType.read
              (f.fd :: instFds (overlay st er ew) EpollType.read)
              = overlay st (f.fd :: er) ew :=
            setInst_overlay_read st er ew (f.fd :: er)
          rw [hst] at hadd
          have hfdfresh : f.fd ∉ st.readFds := hfr f (List.mem_cons_self _ _) hch
          have hnr2 : (f.fd :: er).Nodup := List.nodup_cons.mpr ⟨hmem, hnr⟩
          have hdr2 : ∀ x ∈ f.fd :: er, x ∉ st.readFds := by
            intro x hx
            rcases List.mem_cons.mp hx with h1 | h2
            · rw [h1]; exact hfdfresh
            · exact hdr x h2
          have hpr2 : (f.fd :: er).Perm (rbReads (rb ++ [(f.fd, f.event)])) := by
            rw [rbReads_append]
            simp only [hch, if_pos rfl]
            exact (hpr.cons f.fd).trans
              (List.perm_append_singleton f.fd (rbReads rb)).symm
          have hpw2 : ew.Perm (rbWrites (rb ++ [(f.fd, f.event)])) := by
            rw [rbWrites_append]
            simp [hch]
            exact hpw
          have hok2 : true = false →
              rb ++ [(f.fd, f.event)] = [] ∧ f.fd :: er = [] ∧ ew = [] := by
            intro h
            exact absurd h (by simp)
          have IH := ih (i + 1) (incRef tk) (f.fd :: er) ew
            (rb ++ [(f.fd, f.event)]) true hnr2 hnw hdr2 hdw hfrr hfwr
            hpr2 hpw2 hok2
          simp only [regLoop, henv', hch, hadd]
          constructor
          · intro hko
            obtain ⟨hst', hdels⟩ := IH.1 hko
            refine ⟨hst', ?_⟩
            rw [hdels]
            simp only [List.length_append, List.length_cons, List.length_nil]
            omega
          · intro hko
            obtain ⟨hdels, er', ew', hsteq, h1, h2, h3, h4, h5, h6, h7⟩ := IH.2 hko
            refine ⟨hdels, er', ew', hsteq, h1, h2, h3, h4, ?_, ?_, ?_⟩
            · intro x hx
              rcases h5 x hx with hxe | ⟨g, hg, hgx, hgc⟩
              · rcases List.mem_cons.mp hxe with h1' | h2'
                · exact Or.inr ⟨f, List.mem_cons_self _ _, h1'.symm, hch⟩
                · exact Or.inl h2'
              · exact Or.inr ⟨g, List.mem_cons_of_mem _ hg, hgx, hgc⟩
            · intro x hx
              rcases h6 x hx with hxe | ⟨g, hg, hgx, hgc⟩
              · exact Or.inl hxe
              · exact Or.inr ⟨g, List.mem_cons_of_mem _ hg, hgx, hgc⟩
            · rw [h7]
              simp only [List.length_cons]
              omega
      | write =>
        by_cases hmem : f.fd ∈ ew
        · have hm : f.fd ∈ instFds (overlay st er ew) EpollType.write :=
            List.mem_append_left _ hmem
          have hadd := epollAdd_dup (overlay st er ew) EpollType.write f.fd hm
          have hfr2 : ∀ p ∈ rb, ChooseEpoll p.2 = EpollType.read →
              p.1 ∉ st.readFds := by
            intro p hp hcp
            have hx : p.1 ∈ rbReads rb := (mem_rbReads rb p.1).mpr ⟨p, hp, rfl, hcp⟩
            exact hdr p.1 (hpr.mem_iff.mpr hx)
          have hfw2 : ∀ p ∈ rb, ChooseEpoll p.2 = EpollType.write →
              p.1 ∉ st.writeFds := by
            intro p hp hcp
            have hx : p.1 ∈ rbWrites rb := (mem_rbWrites rb p.1).mpr ⟨p, hp, rfl, hcp⟩
            exact hdw p.1 (hpw.mem_iff.mpr hx)
          have hwr2 : ∀ x ∈ er, ∃ p ∈ rb, p.1 = x ∧
              ChooseEpoll p.2 = EpollType.read :=
            fun x hx => (mem_rbReads rb x).mp (hpr.mem_iff.mp hx)
          have hww2 : ∀ x ∈ ew, ∃ p ∈ rb, p.1 = x ∧
              ChooseEpoll p.2 = EpollType.write :=
            fun x hx => (mem_rbWrites rb x).mp (hpw.mem_iff.mp hx)
          have hds := delSweep_overlay rb (decRef (incRef tk)) st er ew hnr hnw
            hfr2 hfw2 hwr2 hww2
          have hlen : er.length + ew.length = rb.length := by
            have h1 := hpr.length_eq
            have h2 := hpw.length_eq
            have h3 := rbReads_length_add rb
            omega
          simp only [regLoop, henv', hch, hadd]
          constructor
          · intro _
            refine ⟨hds.2.2.2.1, ?_⟩
            rw [hds.2.2.2.2]
            omega
          · intro hcontra
            simp at hcontra
        · have hnm : f.fd ∉ instFds (overlay st er ew) EpollType.write := by
            intro hx
            rcases List.mem_append.mp hx with h1 | h2
            · exact hmem h1
            · exact hfw f (List.mem_cons_self _ _) hch h2
          have hadd := epollAdd_new (overlay st er ew) EpollType.write f.fd hnm
          have hst : setInst (overlay st er ew) EpollType.write
              (f.fd :: instFds (overlay st er ew) EpollType.write)
              = overlay st er (f.fd :: ew) :=
            setInst_overlay_write st er ew (f.fd :: ew)
          rw [hst] at hadd
          have hfdfresh : f.fd ∉ st.writeFds := hfw f (List.mem_cons_self _ _) hch
          have hnw2 : (f.fd :: ew).Nodup := List.nodup_cons.mpr ⟨hmem, hnw⟩
          have hdw2 : ∀ x ∈ f.fd :: ew, x ∉ st.writeFds := by
            intro x hx
            rcases List.mem_cons.mp hx with h1 | h2
            · rw [h1]; exact hfdfresh
            · exact hdw x h2
          have hpw2 : (f.fd :: ew).Perm (rbWrites (rb ++ [(f.fd, f.event)])) := by
            rw [rbWrites_append]
            simp only [hch, if_pos rfl]
            exact (hpw.cons f.fd).trans
              (List.perm_append_singleton f.fd (rbWrites rb)).symm
          have hpr2 : er.Perm (rbReads (rb ++ [(f.fd, f.event)])) := by
            rw [rbReads_append]
            simp [hch]
            exact hpr
          have hok2 : true = false →
              rb ++ [(f.fd, f.event)] = [] ∧ er = [] ∧ f.fd :: ew = [] := by
            intro h
            exact absurd h (by simp)
          have IH := ih (i + 1) (incRef tk) er (f.fd :: ew)
            (rb ++ [(f.fd, f.event)]) true hnr hnw2 hdr hdw2 hfrr hfwr
            hpr2 hpw2 hok2
          simp only [regLoop, henv', hch, hadd]
          constructor
          · intro hko
            obtain ⟨hst', hdels⟩ := IH.1 hko
            refine ⟨hst', ?_⟩
            rw [hdels]
            simp only [List.length_append, List.length_cons, List.length_nil]
            omega
          · intro hko
            obtain ⟨hdels, er', ew', hsteq, h1, h2, h3, h4, h5, h6, h7⟩ := IH.2 hko
            refine ⟨hdels, er', ew', hsteq, h1, h2, h3, h4, ?_, ?_, ?_⟩
            · intro x hx
              rcases h5 x hx with hxe | ⟨g, hg, hgx, hgc⟩
              · exact Or.inl hxe
              · exact Or.inr ⟨g, List.mem_cons_of_mem _ hg, hgx, hgc⟩
            · intro x hx
              rcases h6 x hx with hxe | ⟨g, hg, hgx, hgc⟩
              · rcases List.mem_cons.mp hxe with h1' | h2'
                · exact Or.inr ⟨f, List.mem_cons_self _ _, h1'.symm, hch⟩
                · exact Or.inl h2'
              · exact Or.inr ⟨g, List.mem_cons_of_mem _ hg, hgx, hgc⟩
            · rw [h7]
              simp only [List.length_cons]
              omega

theorem eraseTask_mem (st : IoCore) (x : Nat) (h : x ∈ st.waitTasks) :
    eraseTask st x = (true, { st with waitTasks := st.waitTasks.erase x }) := by
  simp [eraseTask, h]

theorem eraseTask_not_mem (st : IoCore) (x : Nat) (h : x ∉ st.waitTasks) :
    eraseTask st x = (false, st) := by
  simp [eraseTask, h]

/-- A `Cancel` whose task is no longer in the wait-set loses the election
and changes nothing. -/
theorem cancel_lost (tk : Task) (id : Nat) (st : IoCore)
    (h : tk.id ∉ st.waitTasks) :
    (Cancel tk id st).tk = tk ∧ (Cancel tk id st).st = st ∧
    (Cancel tk id st).won = false ∧ (Cancel tk id st).delsOk = 0 := by
  by_cases hid : tk.ioData.io_block_id = id
  · simp [Cancel, hid, eraseTask_not_mem st tk.id h]
  · simp [Cancel, hid]

theorem armTimer_overlay (st : IoCore) (er ew : List Int) (tid gen : Nat)
    (ms : Int) :
    armTimer (overlay st er ew) tid gen ms =
      ((overlay (armTimer st tid gen ms).1 er ew),
       (armTimer st tid gen ms).2) := rfl

/-- Generation, id, interest list and `wait_successful` survive
`SchedulerSwitch` unchanged; the reference count moves by the successful
adds minus the acknowledged dels, plus one while a timeout stands armed. -/
theorem schedulerSwitch_basic (env : Nat → Bool) (tk : Task) (st : IoCore) :
    (SchedulerSwitch env tk st).tk.id = tk.id ∧
    (SchedulerSwitch env tk st).tk.ioData.io_block_id =
      tk.ioData.io_block_id ∧
    (SchedulerSwitch env tk st).tk.ioData.wait_successful =
      tk.ioData.wait_successful ∧
    (SchedulerSwitch env tk st).tk.ioData.wait_fds = tk.ioData.wait_fds ∧
    (SchedulerSwitch env tk st).tk.ioData.io_block_timeout =
      tk.ioData.io_block_timeout ∧
    (SchedulerSwitch env tk st).snappedId = tk.ioData.io_block_id ∧
    (SchedulerSwitch env tk st).tk.refCount =
      tk.refCount + ((SchedulerSwitch env tk st).addsOk : Int)
        - ((SchedulerSwitch env tk st).delsOk : Int)
        + (if (SchedulerSwitch env tk st).armed then 1 else 0) := by
  have hpres := regLoop_preserves tk.ioData.wait_fds env 0 (incRef tk)
    { st with waitTasks := st.waitTasks ++ [tk.id] } [] false
  have href := regLoop_refCount tk.ioData.wait_fds env 0 (incRef tk)
    { st with waitTasks := st.waitTasks ++ [tk.id] } [] false
  simp only [SchedulerSwitch]
  generalize hR : regLoop env tk.ioData.wait_fds 0 (incRef tk)
    { st with waitTasks := st.waitTasks ++ [tk.id] } [] false = R
  rw [hR] at hpres href
  have hid : R.tk.ioData = tk.ioData := hpres.2.1
  have hid2 : R.tk.id = tk.id := hpres.1
  have hrc : R.tk.refCount =
      tk.refCount + 1 + (R.addsOk : Int) - (R.delsOk : Int) := by
    rw [href]; simp [incRef]; try ring
  by_cases hok : R.ok = false
  · rcases her : eraseTask R.st tk.id with ⟨e, st2⟩
    rw [if_pos hok]
    refine ⟨?_, ?_, ?_, ?_, ?_, ?_, ?_⟩
    · simp [decRef, hid2]
    · simp [decRef, hid]
    · simp [decRef, hid]
    · simp [decRef, hid]
    · simp [decRef, hid]
    · simp
    · simp only [decRef]
      simp
      rw [hrc]
      ring
  · simp only [Bool.not_eq_false] at hok
    by_cases ht : R.tk.ioData.io_block_timeout = (-1 : Int)
    · rw [if_neg (by simp [hok]), if_neg (by simp [ht])]
      refine ⟨?_, ?_, ?_, ?_, ?_, ?_, ?_⟩
      · simp [decRef, hid2]
      · simp [decRef, hid]
      · simp [decRef, hid]
      · simp [decRef, hid]
      · simp [decRef, hid]
      · simp
      · simp only [decRef]
        simp
        rw [hrc]
        ring
    · rw [if_neg (by simp [hok]), if_pos ht]
      refine ⟨?_, ?_, ?_, ?_, ?_, ?_, ?_⟩
      · simp [decRef, incRef, armTimer, hid2]
      · simp [decRef, incRef, armTimer, hid]
      · simp [decRef, incRef, armTimer, hid]
      · simp [decRef, incRef, armTimer, hid]
      · simp [decRef, incRef, armTimer, hid]
      · simp [armTimer]
      · simp only [decRef, incRef, armTimer]
        simp
        rw [hrc]
        ring

/-- Branch characterisation of `SchedulerSwitch` from a state whose
instance lists are free of the block's fds and whose wait-set does not yet
hold the task: the failed path restores the instance lists, erases the task
and makes it runnable; the successful path leaves the pushed state overlaid
with one registration per successful add (plus the armed timer when a
timeout was requested). -/
theorem schedulerSwitch_spec (env : Nat → Bool) (tk : Task) (st : IoCore)
    (hfr : ∀ f ∈ tk.ioData.wait_fds,
      ChooseEpoll f.event = EpollType.read → f.fd ∉ st.readFds)
    (hfw : ∀ f ∈ tk.ioData.wait_fds,
      ChooseEpoll f.event = EpollType.write → f.fd ∉ st.writeFds)
    (hW : tk.id ∉ st.waitTasks) :
    ((SchedulerSwitch env tk st).broke = true →
      (SchedulerSwitch env tk st).ok = false) ∧
    ((SchedulerSwitch env tk st).ok = false →
      (SchedulerSwitch env tk st).st = addRunnable st tk.id ∧
      (SchedulerSwitch env tk st).armed = false ∧
      (SchedulerSwitch env tk st).delsOk = (SchedulerSwitch env tk st).addsOk) ∧
    ((SchedulerSwitch env tk st).ok = true →
      (SchedulerSwitch env tk st).delsOk = 0 ∧
      ∃ er ew,
        er.Nodup ∧ ew.Nodup ∧
        (∀ x ∈ er, ∃ f ∈ tk.ioData.wait_fds, f.fd = x ∧
          ChooseEpoll f.event = EpollType.read) ∧
        (∀ x ∈ ew, ∃ f ∈ tk.ioData.wait_fds, f.fd = x ∧
          ChooseEpoll f.event = EpollType.write) ∧
        er.length + ew.length = (SchedulerSwitch env tk st).addsOk ∧
        ((SchedulerSwitch env tk st).armed = false →
          (SchedulerSwitch env tk st).st =
            overlay { st with waitTasks := st.waitTasks ++ [tk.id] } er ew) ∧
        ((SchedulerSwitch env tk st).armed = true →
          (SchedulerSwitch env tk st).st =
            overlay (armTimer { st with waitTasks := st.waitTasks ++ [tk.id] }
              tk.id tk.ioData.io_block_id tk.ioData.io_block_timeout).1
              er ew)) := by
  have hmain := regLoop_main tk.ioData.wait_fds env 0 (incRef tk)
    { st with waitTasks := st.waitTasks ++ [tk.id] } [] [] [] false
    List.nodup_nil List.nodup_nil (by simp) (by simp) hfr hfw
    (by simp [rbReads]) (by simp [rbWrites]) (fun _ => ⟨rfl, rfl, rfl⟩)
  rw [overlay_nil] at hmain
  have hbk := regLoop_broke_ok tk.ioData.wait_fds env 0 (incRef tk)
    { st with waitTasks := st.waitTasks ++ [tk.id] } [] false
  have hpres := regLoop_preserves tk.ioData.wait_fds env 0 (incRef tk)
    { st with waitTasks := st.waitTasks ++ [tk.id] } [] false
  simp only [SchedulerSwitch]
  generalize hR : regLoop env tk.ioData.wait_fds 0 (incRef tk)
    { st with waitTasks := st.waitTasks ++ [tk.id] } [] false = R
  rw [hR] at hmain hbk hpres
  by_cases hok : R.ok = false
  · rcases her : eraseTask R.st tk.id with ⟨e, st2⟩
    obtain ⟨hst', hdels⟩ := hmain.1 hok
    rw [hst'] at her
    rw [eraseTask_pushed st tk.id hW] at her
    have he : e = true := by
      have := congrArg Prod.fst her
      simpa using this.symm
    have hst2 : st2 = st := by
      have := congrArg Prod.snd her
      simpa using this.symm
    subst he; subst hst2
    rw [if_pos hok]
    refine ⟨fun _ => rfl, fun _ => ⟨by simp, rfl, by simpa using hdels⟩, ?_⟩
    intro hcontra
    simp at hcontra
  · simp only [Bool.not_eq_false] at hok
    obtain ⟨hdels, er, ew, hsteq, hn1, hn2, hd1, hd2, hw1, hw2, hlen⟩ :=
      hmain.2 hok
    have hwit1 : ∀ x ∈ er, ∃ f ∈ tk.ioData.wait_fds, f.fd = x ∧
        ChooseEpoll f.event = EpollType.read := by
      intro x hx
      rcases hw1 x hx with hc | hc
      · exact absurd hc (List.not_mem_nil x)
      · exact hc
    have hwit2 : ∀ x ∈ ew, ∃ f ∈ tk.ioData.wait_fds, f.fd = x ∧
        ChooseEpoll f.event = EpollType.write := by
      intro x hx
      rcases hw2 x hx with hc | hc
      · exact absurd hc (List.not_mem_nil x)
      · exact hc
    have hlen' : er.length + ew.length = R.addsOk := by simpa using hlen
    by_cases ht : R.tk.ioData.io_block_timeout = (-1 : Int)
    · rw [if_neg (by simp [hok]), if_neg (by simp [ht])]
      refine ⟨?_, ?_, ?_⟩
      · intro hbroke
        have := hbk (by simpa using hbroke)
        rw [hok] at this
        cases this
      · intro hcontra
        simp at hcontra
      · intro _
        refine ⟨by simpa using hdels, er, ew, hn1, hn2, hwit1, hwit2,
          by simpa using hlen', ?_, ?_⟩
        · intro _
          simpa using hsteq
        · intro hcontra
          simp at hcontra
    · rw [if_neg (by simp [hok]), if_pos ht]
      have htime : R.tk.ioData.io_block_timeout = tk.ioData.io_block_timeout := by
        rw [hpres.2.1]
        rfl
      refine ⟨?_, ?_, ?_⟩
      · intro hbroke
        have := hbk (by simpa using hbroke)
        rw [hok] at this
        cases this
      · intro hcontra
        simp at hcontra
      · intro _
        refine ⟨by simpa using hdels, er, ew, hn1, hn2, hwit1, hwit2,
          by simpa using hlen', ?_, ?_⟩
        · intro hcontra
          simp at hcontra
        · intro _
          simp only [armTimer]
          rw [hsteq]
          rw [htime]
          rfl

/-- A `Cancel` carrying the current generation, against a state that is the
base `b` (holding the task in its wait-set) overlaid with the block's
registrations, wins the election, deletes exactly the block's
registrations (one acknowledged `DEL` and one decrement per extra), and
leaves the task runnable with the base instance lists restored. -/
theorem cancel_clears (tk : Task) (id : Nat) (b : IoCore) (er ew : List Int)
    (hid : tk.ioData.io_block_id = id)
    (hnr : er.Nodup) (hnw : ew.Nodup)
    (hfr : ∀ f ∈ tk.ioData.wait_fds,
      ChooseEpoll f.event = EpollType.read → f.fd ∉ b.readFds)
    (hfw : ∀ f ∈ tk.ioData.wait_fds,
      ChooseEpoll f.event = EpollType.write → f.fd ∉ b.writeFds)
    (hwr : ∀ x ∈ er, ∃ f ∈ tk.ioData.wait_fds, f.fd = x ∧
      ChooseEpoll f.event = EpollType.read)
    (hww : ∀ x ∈ ew, ∃ f ∈ tk.ioData.wait_fds, f.fd = x ∧
      ChooseEpoll f.event = EpollType.write)
    (hin : tk.id ∈ b.waitTasks) :
    (Cancel tk id (overlay b er ew)).won = true ∧
    (Cancel tk id (overlay b er ew)).delsOk = er.length + ew.length ∧
    (Cancel tk id (overlay b er ew)).tk.refCount =
      tk.refCount - ((er.length + ew.length : Nat) : Int) ∧
    (Cancel tk id (overlay b er ew)).tk.id = tk.id ∧
    (Cancel tk id (overlay b er ew)).tk.ioData = tk.ioData ∧
    (Cancel tk id (overlay b er ew)).st =
      addRunnable { b with waitTasks := b.waitTasks.erase tk.id } tk.id := by
  have hb' : ({ b with waitTasks := b.waitTasks.erase tk.id } : IoCore).readFds
      = b.readFds := rfl
  have hsweep := delSweep_overlay
    (tk.ioData.wait_fds.map fun f => (f.fd, f.event)) tk
    { b with waitTasks := b.waitTasks.erase tk.id } er ew hnr hnw
    (by
      intro p hp hcp
      rcases List.mem_map.mp hp with ⟨f, hf, rfl⟩
      exact hfr f hf hcp)
    (by
      intro p hp hcp
      rcases List.mem_map.mp hp with ⟨f, hf, rfl⟩
      exact hfw f hf hcp)
    (by
      intro x hx
      rcases hwr x hx with ⟨f, hf, hfx, hfc⟩
      exact ⟨(f.fd, f.event), List.mem_map_of_mem _ hf, hfx, hfc⟩)
    (by
      intro x hx
      rcases hww x hx with ⟨f, hf, hfx, hfc⟩
      exact ⟨(f.fd, f.event), List.mem_map_of_mem _ hf, hfx, hfc⟩)
  have herase : eraseTask (overlay b er ew) tk.id =
      (true, overlay { b with waitTasks := b.waitTasks.erase tk.id } er ew) := by
    rw [eraseTask_overlay, eraseTask_mem b tk.id hin]
  simp only [Cancel, hid, ne_eq, not_true_eq_false, if_false, herase]
  refine ⟨by trivial, ?_, ?_, ?_, ?_, ?_⟩
  · simpa using hsweep.2.2.2.2
  · simpa using hsweep.1
  · simpa using hsweep.2.1
  · simpa using hsweep.2.2.1
  · simp only [addRunnable]
    rw [show (delSweep tk
        (overlay { b with waitTasks := b.waitTasks.erase tk.id } er ew)
        (tk.ioData.wait_fds.map fun f => (f.fd, f.event))).2.1 =
        { b with waitTasks := b.waitTasks.erase tk.id } from hsweep.2.2.2.1]

theorem erase_append_self (l : List Nat) (x : Nat) (h : x ∉ l) :
    (l ++ [x]).erase x = l := by
  rw [List.erase_append_right _ h]
  simp

/-! ### Claim C2: duplicate-fd rollback -/

/-- C2: when the kernel add of some fd of the block reports it already
present, the pre-emptive reference increment is reverted, every previously
successful registration in the rollback list is deleted from its instance
(one decrement per acknowledged `DEL`, so `delsOk = addsOk`), the loop
stops with `ok = false`, the task is erased from the wait-set and made
immediately runnable, `wait_successful` is still 0, no timer is armed, the
reference count is back at its starting value, and none of the block's fds
is left registered (both instance lists are exactly as before the block). -/
theorem dup_fd_rollback (env : Nat → Bool) (tk0 : Task) (fds : List FdStruct)
    (timeout : Int) (st0 : IoCore)
    (hfr : ∀ f ∈ fds, ChooseEpoll f.event = EpollType.read →
      f.fd ∉ st0.readFds)
    (hfw : ∀ f ∈ fds, ChooseEpoll f.event = EpollType.write →
      f.fd ∉ st0.writeFds)
    (hW : tk0.id ∉ st0.waitTasks) :
    ∀ tk1, CoSwitch (some tk0) fds timeout = some tk1 →
      (SchedulerSwitch env tk1 st0).broke = true →
      (SchedulerSwitch env tk1 st0).ok = false ∧
      (SchedulerSwitch env tk1 st0).delsOk =
        (SchedulerSwitch env tk1 st0).addsOk ∧
      (SchedulerSwitch env tk1 st0).st.readFds = st0.readFds ∧
      (SchedulerSwitch env tk1 st0).st.writeFds = st0.writeFds ∧
      (SchedulerSwitch env tk1 st0).st.waitTasks = st0.waitTasks ∧
      (SchedulerSwitch env tk1 st0).st.runnable = st0.runnable ++ [tk0.id] ∧
      (SchedulerSwitch env tk1 st0).st.timers = st0.timers ∧
      (SchedulerSwitch env tk1 st0).armed = false ∧
      (SchedulerSwitch env tk1 st0).tk.ioData.wait_successful = 0 ∧
      (SchedulerSwitch env tk1 st0).tk.refCount = tk0.refCount := by
  intro tk1 h hbroke
  simp only [CoSwitch, Option.some.injEq] at h
  have hfds : tk1.ioData.wait_fds = fds.map fun f =>
      ({ f with epoll_ptr :=
        { tk := tk0.id, io_block_id := tk0.ioData.io_block_id + 1 } } :
        FdStruct) := by rw [← h]
  have hid1 : tk1.id = tk0.id := by rw [← h]
  have hws : tk1.ioData.wait_successful = 0 := by rw [← h]
  have hrc : tk1.refCount = tk0.refCount := by rw [← h]
  have hfr1 : ∀ g ∈ tk1.ioData.wait_fds,
      ChooseEpoll g.event = EpollType.read → g.fd ∉ st0.readFds := by
    rw [hfds]
    intro g hg
    rcases List.mem_map.mp hg with ⟨f, hf, rfl⟩
    exact hfr f hf
  have hfw1 : ∀ g ∈ tk1.ioData.wait_fds,
      ChooseEpoll g.event = EpollType.write → g.fd ∉ st0.writeFds := by
    rw [hfds]
    intro g hg
    rcases List.mem_map.mp hg with ⟨f, hf, rfl⟩
    exact hfw f hf
  have hW1 : tk1.id ∉ st0.waitTasks := by rw [hid1]; exact hW
  have hspec := schedulerSwitch_spec env tk1 st0 hfr1 hfw1 hW1
  have hbasic := schedulerSwitch_basic env tk1 st0
  have hok := hspec.1 hbroke
  obtain ⟨hstF, harmF, hdelsF⟩ := hspec.2.1 hok
  refine ⟨hok, hdelsF, ?_, ?_, ?_, ?_, ?_, harmF, ?_, ?_⟩
  · rw [hstF]; rfl
  · rw [hstF]; rfl
  · rw [hstF]; rfl
  · rw [hstF]
    show st0.runnable ++ [tk1.id] = st0.runnable ++ [tk0.id]
    rw [hid1]
  · rw [hstF]; rfl
  · rw [hbasic.2.2.1, hws]
  · rw [hbasic.2.2.2.2.2.2, hdelsF, harmF, hrc]
    simp

/-- The post-`CoSwitch` task for the duplicate-fd block `[(3,IN),(3,IN)]`. -/
def sampleDupSwitched : Task :=
  ⟨7, .io_block, ⟨1, 0, -1, none, [⟨3, 1, ⟨7, 1⟩⟩, ⟨3, 1, ⟨7, 1⟩⟩]⟩, 5⟩

/-- Witness for `dup_fd_rollback` on the block `[(3,IN),(3,IN)]`. -/
theorem dup_fd_rollback_witness :
    (SchedulerSwitch envNone sampleDupSwitched sampleCore).ok = false ∧
    (SchedulerSwitch envNone sampleDupSwitched sampleCore).st.readFds = [] ∧
    (SchedulerSwitch envNone sampleDupSwitched sampleCore).st.runnable = [7] ∧
    (SchedulerSwitch envNone sampleDupSwitched sampleCore).tk.refCount = 5 := by
  have h := dup_fd_rollback envNone sampleTask
    [sampleFd 3 EPOLLIN, sampleFd 3 EPOLLIN] (-1) sampleCore
    (by intro f _ _; simp [sampleCore])
    (by intro f _ _; simp [sampleCore])
    (by simp [sampleCore, sampleTask])
    sampleDupSwitched (by decide) (by decide)
  exact ⟨h.1, by rw [h.2.2.1]; rfl, by rw [h.2.2.2.2.2.1]; rfl,
    by rw [h.2.2.2.2.2.2.2.2.2]; rfl⟩

theorem completeBlock_eq (env : Nat → Bool) (tk0 : Task) (fds : List FdStruct)
    (timeout : Int) (st0 : IoCore) (extFirst : Bool) :
    ∀ tk1, CoSwitch (some tk0) fds timeout = some tk1 →
    completeBlock env tk0 fds timeout st0 extFirst =
      (let R := SchedulerSwitch env tk1 st0
       if R.ok = false then (R.tk, R.st)
       else if R.armed then
         if extFirst then
           let C := Cancel R.tk R.snappedId R.st
           let T := timerCallback C.tk R.snappedId C.st
           (T.tk, T.st)
         else
           let T := timerCallback R.tk R.snappedId R.st
           (T.tk, T.st)
       else
         let C := Cancel R.tk R.snappedId R.st
         (C.tk, C.st)) := by
  intro tk1 h
  simp only [completeBlock, h]

/-! ### Claim C4: reference-count balance across a completed block -/

/-- C4: over every completed block — `CoSwitch`, `SchedulerSwitch`
(including the duplicate-fd rollback path and the timeout-arming path),
then the winning cancel and, when a timer was armed, the timer callback —
the task's reference count ends where it started; as a by-product both
instance lists are restored to their pre-block contents. -/
theorem refcount_balance (env : Nat → Bool) (tk0 : Task) (fds : List FdStruct)
    (timeout : Int) (st0 : IoCore) (extFirst : Bool)
    (hfr : ∀ f ∈ fds, ChooseEpoll f.event = EpollType.read →
      f.fd ∉ st0.readFds)
    (hfw : ∀ f ∈ fds, ChooseEpoll f.event = EpollType.write →
      f.fd ∉ st0.writeFds)
    (hW : tk0.id ∉ st0.waitTasks) :
    (completeBlock env tk0 fds timeout st0 extFirst).1.refCount =
      tk0.refCount ∧
    (completeBlock env tk0 fds timeout st0 extFirst).2.readFds =
      st0.readFds ∧
    (completeBlock env tk0 fds timeout st0 extFirst).2.writeFds =
      st0.writeFds := by
  rcases hcs : CoSwitch (some tk0) fds timeout with _ | tk1
  · simp [CoSwitch] at hcs
  · rw [completeBlock_eq env tk0 fds timeout st0 extFirst tk1 hcs]
    simp only [CoSwitch, Option.some.injEq] at hcs
    have hfds : tk1.ioData.wait_fds = fds.map fun f =>
        ({ f with epoll_ptr :=
          { tk := tk0.id, io_block_id := tk0.ioData.io_block_id + 1 } } :
          FdStruct) := by rw [← hcs]
    have hid1 : tk1.id = tk0.id := by rw [← hcs]
    have hrc : tk1.refCount = tk0.refCount := by rw [← hcs]
    have hfr1 : ∀ g ∈ tk1.ioData.wait_fds,
        ChooseEpoll g.event = EpollType.read → g.fd ∉ st0.readFds := by
      rw [hfds]
      intro g hg
      rcases List.mem_map.mp hg with ⟨f, hf, rfl⟩
      exact hfr f hf
    have hfw1 : ∀ g ∈ tk1.ioData.wait_fds,
        ChooseEpoll g.event = EpollType.write → g.fd ∉ st0.writeFds := by
      rw [hfds]
      intro g hg
      rcases List.mem_map.mp hg with ⟨f, hf, rfl⟩
      exact hfw f hf
    have hW1 : tk1.id ∉ st0.waitTasks := by rw [hid1]; exact hW
    have hspec := schedulerSwitch_spec env tk1 st0 hfr1 hfw1 hW1
    have hbasic := schedulerSwitch_basic env tk1 st0
    set S := SchedulerSwitch env tk1 st0 with hS
    have hrcS := hbasic.2.2.2.2.2.2
    by_cases hok : S.ok = false
    · rw [if_pos hok]
      obtain ⟨hstF, harmF, hdelsF⟩ := hspec.2.1 hok
      refine ⟨?_, ?_, ?_⟩
      · rw [hrcS, hdelsF, harmF, hrc]; simp
      · rw [hstF]; rfl
      · rw [hstF]; rfl
    · simp only [Bool.not_eq_false] at hok
      rw [if_neg (by simp [hok])]
      obtain ⟨hdels0, er, ew, hn1, hn2, hwit1, hwit2, hlen, hnoarm, hyarm⟩ :=
        hspec.2.2 hok
      have hsid : S.tk.ioData.io_block_id = S.snappedId := by
        rw [hbasic.2.1, hbasic.2.2.2.2.2.1]
      have hfds2 : S.tk.ioData.wait_fds = tk1.ioData.wait_fds :=
        hbasic.2.2.2.1
      have hSid : S.tk.id = tk1.id := hbasic.1
      by_cases harm : S.armed = true
      · rw [if_pos harm]
        have hstA := hyarm harm
        have hbw : ((armTimer
            { st0 with waitTasks := st0.waitTasks ++ [tk1.id] }
            tk1.id tk1.ioData.io_block_id
            tk1.ioData.io_block_timeout).1).waitTasks =
            st0.waitTasks ++ [tk1.id] := rfl
        have hin : S.tk.id ∈ ((armTimer
            { st0 with waitTasks := st0.waitTasks ++ [tk1.id] }
            tk1.id tk1.ioData.io_block_id
            tk1.ioData.io_block_timeout).1).waitTasks := by
          rw [hSid, hbw]
          exact List.mem_append_right _ (List.mem_singleton.mpr rfl)
        have hclear := cancel_clears S.tk S.snappedId
          (armTimer { st0 with waitTasks := st0.waitTasks ++ [tk1.id] }
            tk1.id tk1.ioData.io_block_id tk1.ioData.io_block_timeout).1
          er ew hsid hn1 hn2
          (by
            rw [hfds2]
            intro f hf hc
            exact hfr1 f hf hc)
          (by
            rw [hfds2]
            intro f hf hc
            exact hfw1 f hf hc)
          (by rw [hfds2]; exact hwit1)
          (by rw [hfds2]; exact hwit2)
          hin
        rw [← hstA] at hclear
        have hCrc := hclear.2.2.1
        have hCid := hclear.2.2.2.1
        have hCst := hclear.2.2.2.2.2
        simp only [harm, if_true] at hrcS
        have hCw : (Cancel S.tk S.snappedId S.st).st.waitTasks =
            st0.waitTasks := by
          rw [hCst]
          show ((armTimer { st0 with waitTasks := st0.waitTasks ++ [tk1.id] }
            tk1.id tk1.ioData.io_block_id
            tk1.ioData.io_block_timeout).1.waitTasks).erase S.tk.id =
            st0.waitTasks
          rw [hbw, hSid]
          exact erase_append_self st0.waitTasks tk1.id hW1
        by_cases hext : extFirst = true
        · rw [if_pos hext]
          simp only [timerCallback]
          have hnotin : (Cancel S.tk S.snappedId S.st).tk.id ∉
              (Cancel S.tk S.snappedId S.st).st.waitTasks := by
            rw [hCw, hCid, hSid]
            exact hW1
          have hlost := cancel_lost (Cancel S.tk S.snappedId S.st).tk
            S.snappedId (Cancel S.tk S.snappedId S.st).st hnotin
          refine ⟨?_, ?_, ?_⟩
          · rw [hlost.1]
            simp only [decRef]
            rw [hCrc, hrcS, hrc]
            push_cast
            omega
          · rw [hlost.2.1, hCst]
            rfl
          · rw [hlost.2.1, hCst]
            rfl
        · rw [if_neg hext]
          simp only [timerCallback]
          refine ⟨?_, ?_, ?_⟩
          · simp only [decRef]
            rw [hCrc, hrcS, hrc]
            push_cast
            omega
          · rw [hCst]
            rfl
          · rw [hCst]
            rfl
      · have harm' : S.armed = false := by simpa using harm
        rw [if_neg (by simp [harm'])]
        have hstN := hnoarm harm'
        simp only [harm', Bool.false_eq_true, if_false] at hrcS
        have hin : S.tk.id ∈
            ({ st0 with waitTasks := st0.waitTasks ++ [tk1.id] } :
              IoCore).waitTasks := by
          rw [hSid]
          exact List.mem_append_right _ (List.mem_singleton.mpr rfl)
        have hclear := cancel_clears S.tk S.snappedId
          { st0 with waitTasks := st0.waitTasks ++ [tk1.id] } er ew hsid
          hn1 hn2
          (by
            rw [hfds2]
            intro f hf hc
            exact hfr1 f hf hc)
          (by
            rw [hfds2]
            intro f hf hc
            exact hfw1 f hf hc)
          (by rw [hfds2]; exact hwit1)
          (by rw [hfds2]; exact hwit2)
          hin
        rw [← hstN] at hclear
        refine ⟨?_, ?_, ?_⟩
        · show (Cancel S.tk S.snappedId S.st).tk.refCount = tk0.refCount
          rw [hclear.2.2.1, hrcS, hrc]
          push_cast
          omega
        · show (Cancel S.tk S.snappedId S.st).st.readFds = st0.readFds
          rw [hclear.2.2.2.2.2]
          rfl
        · show (Cancel S.tk S.snappedId S.st).st.writeFds = st0.writeFds
          rw [hclear.2.2.2.2.2]
          rfl

/-- Witness for `refcount_balance`: a two-fd mixed block with a 50 ms
timeout, resolved by readiness first and then the stale timer callback. -/
theorem refcount_balance_witness :
    (completeBlock envNone sampleTask
      [sampleFd 3 EPOLLIN, sampleFd 4 EPOLLOUT] 50 sampleCore true).1.refCount
      = 5 ∧
    (completeBlock envNone sampleTask
      [sampleFd 3 EPOLLIN, sampleFd 4 EPOLLOUT] 50 sampleCore true).2.readFds
      = [] := by
  have h := refcount_balance envNone sampleTask
    [sampleFd 3 EPOLLIN, sampleFd 4 EPOLLOUT] 50 sampleCore true
    (by intro f _ _; simp [sampleCore])
    (by intro f _ _; simp [sampleCore])
    (by simp [sampleCore, sampleTask])
  exact ⟨by rw [h.1]; rfl, by rw [h.2.1]; rfl⟩

/-! ### Claim C1: single resumer -/

/-- One contender's move, summarised: the task's identity and io data are
untouched; a contender finding the task in the wait-set observes
`erase = true`, removes it, and is the one to enqueue it runnable; a
contender finding it absent observes `erase = false` and leaves the shared
state exactly as it was. -/
theorem actorStep_basic (tk : Task) (st : IoCore) (a : Actor)
    (hg : actorGen a = none ∨ actorGen a = some tk.ioData.io_block_id) :
    (actorStep tk st a).1.id = tk.id ∧
    (actorStep tk st a).1.ioData = tk.ioData ∧
    (tk.id ∈ st.waitTasks →
      (actorStep tk st a).2.2 = true ∧
      (actorStep tk st a).2.1.waitTasks = st.waitTasks.erase tk.id ∧
      (actorStep tk st a).2.1.runnable = st.runnable ++ [tk.id]) ∧
    (tk.id ∉ st.waitTasks →
      (actorStep tk st a).2.2 = false ∧
      (actorStep tk st a).2.1 = st) := by
  have hcancel : ∀ g, tk.ioData.io_block_id = g →
      (Cancel tk g st).tk.id = tk.id ∧
      (Cancel tk g st).tk.ioData = tk.ioData ∧
      (tk.id ∈ st.waitTasks →
        (Cancel tk g st).won = true ∧
        (Cancel tk g st).st.waitTasks = st.waitTasks.erase tk.id ∧
        (Cancel tk g st).st.runnable = st.runnable ++ [tk.id]) ∧
      (tk.id ∉ st.waitTasks →
        (Cancel tk g st).won = false ∧
        (Cancel tk g st).st = st) := by
    intro g hid
    by_cases hmem : tk.id ∈ st.waitTasks
    · have herase := eraseTask_mem st tk.id hmem
      have hsw := delSweep_preserves
        (tk.ioData.wait_fds.map fun f => (f.fd, f.event)) tk
        { st with waitTasks := st.waitTasks.erase tk.id }
      simp only [Cancel, hid, ne_eq, not_true_eq_false, if_false, herase]
      refine ⟨?_, ?_, fun _ => ⟨?_, ?_, ?_⟩, fun hc => absurd hmem hc⟩
      · simpa using hsw.1
      · simpa using hsw.2.1
      · trivial
      · simp only [addRunnable]
        simpa using hsw.2.2.1
      · simp only [addRunnable]
        rw [show (delSweep tk { st with waitTasks := st.waitTasks.erase tk.id }
          (tk.ioData.wait_fds.map fun f => (f.fd, f.event))).2.1.runnable =
          ({ st with waitTasks := st.waitTasks.erase tk.id } :
            IoCore).runnable from hsw.2.2.2.1]
    · have herase := eraseTask_not_mem st tk.id hmem
      simp only [Cancel, hid, ne_eq, not_true_eq_false, if_false, herase]
      exact ⟨by trivial, by trivial, fun hc => absurd hc hmem,
        fun _ => ⟨by trivial, by trivial⟩⟩
  cases a with
  | readiness g =>
    rcases hg with hg | hg
    · simp [actorGen] at hg
    · simp only [actorGen, Option.some.injEq] at hg
      have h := hcancel g hg.symm
      simp only [actorStep]
      exact h
  | explicitCancel g =>
    rcases hg with hg | hg
    · simp [actorGen] at hg
    · simp only [actorGen, Option.some.injEq] at hg
      have h := hcancel g hg.symm
      simp only [actorStep]
      exact h
  | timeout g =>
    rcases hg with hg | hg
    · simp [actorGen] at hg
    · simp only [actorGen, Option.some.injEq] at hg
      have h := hcancel g hg.symm
      simp only [actorStep, timerCallback]
      exact ⟨h.1, h.2.1, fun hm => (h.2.2.1 hm), fun hm => (h.2.2.2 hm)⟩
  | failedReg =>
    by_cases hmem : tk.id ∈ st.waitTasks
    · have herase := eraseTask_mem st tk.id hmem
      simp only [actorStep, herase]
      exact ⟨by trivial, by trivial,
        fun _ => ⟨by trivial, by trivial, by trivial⟩,
        fun hc => absurd hmem hc⟩
    · have herase := eraseTask_not_mem st tk.id hmem
      simp only [actorStep, herase]
      exact ⟨by trivial, by trivial, fun hc => absurd hc hmem,
        fun _ => ⟨by trivial, by trivial⟩⟩

/-- Once the task is out of the wait-set, every remaining contender loses
the election and leaves the shared state untouched. -/
theorem runActors_loss (actors : List Actor) (tk : Task) (st : IoCore)
    (hg : ∀ a ∈ actors, actorGen a = none ∨
      actorGen a = some tk.ioData.io_block_id)
    (h0 : tk.id ∉ st.waitTasks) :
    (runActors tk st actors).2.2 = 0 ∧
    (runActors tk st actors).2.1 = st := by
  induction actors generalizing tk with
  | nil => exact ⟨rfl, rfl⟩
  | cons a rest ih =>
    have hstep := actorStep_basic tk st a (hg a (List.mem_cons_self _ _))
    rcases he : actorStep tk st a with ⟨tk1, st1, w⟩
    rw [he] at hstep
    obtain ⟨hsid, hsio, -, hlose⟩ := hstep
    obtain ⟨hw, hst1⟩ := hlose h0
    simp only at hsid hsio hw hst1
    rw [hst1] at he
    have hg' : ∀ b ∈ rest, actorGen b = none ∨
        actorGen b = some tk1.ioData.io_block_id := by
      intro b hb
      rw [hsio]
      exact hg b (List.mem_cons_of_mem _ hb)
    have h0' : tk1.id ∉ st.waitTasks := by
      rw [hsid]
      exact h0
    have ihr := ih tk1 hg' h0'
    simp only [runActors, he]
    refine ⟨?_, ihr.2⟩
    rw [hw]
    simpa using ihr.1

/-- C1: single resumer — for one blocking call (the task sits exactly once
in the wait-set, every contender carrying the block's generation `G` or
being the failed-registration path), whatever non-empty set of contenders
races, exactly one of them observes `erase(tk) = true`, and the task is
enqueued runnable exactly once; every other contender observes
`erase = false` and does not touch the run queue. -/
theorem single_resumer (tk : Task) (st : IoCore) (actors : List Actor)
    (hne : actors ≠ [])
    (hg : ∀ a ∈ actors, actorGen a = none ∨
      actorGen a = some tk.ioData.io_block_id)
    (hone : st.waitTasks.count tk.id = 1) :
    (runActors tk st actors).2.2 = 1 ∧
    (runActors tk st actors).2.1.runnable.count tk.id =
      st.runnable.count tk.id + 1 := by
  cases actors with
  | nil => exact absurd rfl hne
  | cons a rest =>
    have hmem : tk.id ∈ st.waitTasks := by
      have : 0 < st.waitTasks.count tk.id := by omega
      exact List.count_pos_iff.mp this
    have hstep := actorStep_basic tk st a (hg a (List.mem_cons_self _ _))
    rcases he : actorStep tk st a with ⟨tk1, st1, w⟩
    rw [he] at hstep
    obtain ⟨hsid, hsio, hwin, -⟩ := hstep
    obtain ⟨hw, hwt, hwr⟩ := hwin hmem
    simp only at hsid hsio hw hwt hwr
    have hg' : ∀ b ∈ rest, actorGen b = none ∨
        actorGen b = some tk1.ioData.io_block_id := by
      intro b hb
      rw [hsio]
      exact hg b (List.mem_cons_of_mem _ hb)
    have h0' : tk1.id ∉ st1.waitTasks := by
      rw [hsid, hwt]
      intro hc
      have := List.count_erase_self tk.id st.waitTasks
      rw [hone] at this
      have hpos := List.count_pos_iff.mpr hc
      omega
    have ihr := runActors_loss rest tk1 st1 hg' h0'
    simp only [runActors, he]
    constructor
    · rw [hw]
      simpa using ihr.1
    · rw [ihr.2, hwr, List.count_append]
      have : List.count tk.id [tk.id] = 1 := by simp
      rw [this]

/-- The wait-set state for the C1 witness: task 7 blocked, generation 1. -/
def sampleWaitCore : IoCore := ⟨[7], [], [], [], [], 0⟩

/-- Witness for `single_resumer`: readiness, timeout and explicit cancel,
all carrying generation 1, race for the block of `sampleCoSwitched`. -/
theorem single_resumer_witness :
    (runActors sampleCoSwitched sampleWaitCore
      [Actor.readiness 1, Actor.timeout 1, Actor.explicitCancel 1]).2.2
      = 1 ∧
    (runActors sampleCoSwitched sampleWaitCore
      [Actor.readiness 1, Actor.timeout 1,
        Actor.explicitCancel 1]).2.1.runnable.count 7 = 1 := by
  have h := single_resumer sampleCoSwitched sampleWaitCore
    [Actor.readiness 1, Actor.timeout 1, Actor.explicitCancel 1]
    (by simp) (by decide) (by decide)
  refine ⟨h.1, ?_⟩
  have h2 := h.2
  have h3 : sampleCoSwitched.id = 7 := rfl
  rw [h3] at h2
  rw [h2]
  decide

end IoWait
